import Mathlib

/-!
# slack_markov: the Markov chain engine of `slack_markov.go`

A shallow embedding of `Prefix`, `Chain`, `Chain.Build`, `Chain.Generate`,
`parseScrape`, `checkUser` and the marker stripping of `buildPost`.

Modelling conventions.

* A Go `string` is a `List Char`.  Every byte-level operation of the program
  (`len(each) > 6`, `each[:6]`, `each[6:]`, `strings.Contains`, `strings.Split`
  on `" "`) tests for ASCII patterns, for which byte positions and character
  positions coincide on UTF-8 text.
* A Go call either returns or panics: `Go α` is `Except GoPanic α`.
* `map[string][]string` is an association list with pairwise distinct keys.
  Reading a missing key gives the nil slice.  Go leaves the order of
  `for each := range c.chain` unspecified; here it is the order of the list,
  so a statement for all lists is a statement for all enumeration orders.
* `rand.Intn(k)` is fed by a stream of raw draws `rnd : Nat → Nat`: the call
  consumes the head `rnd 0`, returns `rnd 0 % k`, and panics when `k ≤ 0`.
-/

namespace SlackMarkov

/-- Go strings, as character sequences. -/
abbrev Str := List Char

/-- Run-time panics the modelled code can raise. -/
inductive GoPanic where
  | intnArg
  | indexOutOfRange
  | sliceBounds
  | typeAssertion
  deriving DecidableEq, Repr

/-- Outcome of a Go call: a returned value or a panic. -/
abbrev Go (α : Type) := Except GoPanic α

deriving instance DecidableEq for Except

/-- The end-of-utterance marker literal `"<end/>"`. -/
def endMarker : Str := ['<', 'e', 'n', 'd', '/', '>']

/-- The truncation marker literal `"[...]"`. -/
def truncMarker : Str := ['[', '.', '.', '.', ']']

/-! ## Library functions used by the program -/

/-- `strings.Join(words, " ")`. -/
def Join : List Str → Str
  | [] => []
  | [w] => w
  | w :: w2 :: ws => w ++ ' ' :: Join (w2 :: ws)

/-- `strings.Split(s, " ")`: cut at every space, keeping empty pieces. -/
def Split : Str → List Str
  | [] => [[]]
  | c :: cs =>
    if c = ' ' then [] :: Split cs
    else
      match Split cs with
      | [] => [[c]]
      | h :: t => (c :: h) :: t

/-- `strings.Contains(s, substr)`: some suffix of `s` starts with `substr`. -/
def Contains : Str → Str → Bool
  | [], sub => sub.isEmpty
  | c :: cs, sub => sub.isPrefixOf (c :: cs) || Contains cs sub

/-- The white space of `fmt` scanning (`isSpace` in `fmt/scan.go`). -/
def isSpace (c : Char) : Bool :=
  let n := c.toNat
  (0x09 ≤ n && n ≤ 0x0d) || n == 0x20 || n == 0x85 || n == 0xa0 || n == 0x1680 ||
  (0x2000 ≤ n && n ≤ 0x200a) || n == 0x2028 || n == 0x2029 || n == 0x202f ||
  n == 0x205f || n == 0x3000

/-- The successive results of `fmt.Fscan(br, &s)` until it fails at end of
input: `cur` is the token being read, white space ends it. -/
def scanTokens : Str → Str → List Str
  | [], cur => if cur = [] then [] else [cur]
  | c :: cs, cur =>
    if isSpace c then
      if cur = [] then scanTokens cs [] else cur :: scanTokens cs []
    else scanTokens cs (cur ++ [c])

/-- All tokens `fmt.Fscan` reads from a reader holding `r`. -/
def fscanTokens (r : Str) : List Str := scanTokens r []

/-- `rand.Intn(k)` on the head of the draw stream; panics for `k = 0`. -/
def Intn (rnd : Nat → Nat) (k : Nat) : Go Nat :=
  if k = 0 then Except.error GoPanic.intnArg else Except.ok (rnd 0 % k)

/-- The draw stream after one call of `rand.Intn`. -/
def nextDraws (rnd : Nat → Nat) : Nat → Nat := fun j => rnd (j + 1)

/-- `regexp.ReplaceAllString(text, "")` for the literal pattern `"<end/>"`:
one left-to-right pass deleting each leftmost non-overlapping match.  `skip`
counts the characters of the current match still to be deleted. -/
def stripFrom : Nat → Str → Str
  | _, [] => []
  | skip + 1, _ :: cs => stripFrom skip cs
  | 0, c :: cs =>
    if endMarker.isPrefixOf (c :: cs) then stripFrom 5 cs else c :: stripFrom 0 cs

/-- The default clean-up of `buildPost` (`STRIP_TAGS` false). -/
def stripMarkers (text : Str) : Str := stripFrom 0 text

/-! ## Prefix -/

/-- `type Prefix []string`. -/
abbrev Prefix := List Str

/-- `Prefix.String`: the map key of a prefix. -/
def Prefix.String (p : Prefix) : Str := Join p

/-- `Prefix.Shift`: `copy(p, p[1:]); p[len(p)-1] = word`.  On an empty
prefix `p[1:]` is out of bounds. -/
def Prefix.Shift (p : Prefix) (word : Str) : Go Prefix :=
  match p with
  | [] => Except.error GoPanic.sliceBounds
  | _ :: rest => Except.ok (rest ++ [word])

/-- `make(Prefix, n)`: `n` empty strings. -/
def makePrefix (n : Nat) : Prefix := List.replicate n []

/-! ## Chain -/

/-- The map `chain`, as an association list in enumeration order. -/
abbrev Table := List (Str × List Str)

/-- The read `c.chain[key]`: the nil slice when the key is absent. -/
def Table.get : Table → Str → List Str
  | [], _ => []
  | (k, v) :: rest, key => if k = key then v else Table.get rest key

/-- The write `c.chain[key] = v`. -/
def Table.set : Table → Str → List Str → Table
  | [], key, v => [(key, v)]
  | (k, v0) :: rest, key, v =>
    if k = key then (k, v) :: rest else (k, v0) :: Table.set rest key v

/-- The keys of the map, in enumeration order. -/
def Table.keys (m : Table) : List Str := m.map Prod.fst

/-- `type Chain struct { chain map[string][]string; prefixLen int }`, for a
prefix length that is not negative. -/
structure Chain where
  chain : Table
  prefixLen : Nat
  deriving DecidableEq, Repr

/-- `NewChain`. -/
def NewChain (prefixLen : Nat) : Chain := ⟨[], prefixLen⟩

/-- The loop body of `Chain.Build`, run over the tokens `fmt.Fscan` yields. -/
def buildLoop (m : Table) (p : Prefix) : List Str → Go (Table × Prefix)
  | [] => Except.ok (m, p)
  | s :: rest =>
    let key := Prefix.String p
    let m1 := Table.set m key (Table.get m key ++ [s])
    match Prefix.Shift p s with
    | Except.error e => Except.error e
    | Except.ok p1 => buildLoop m1 p1 rest

/-- `Chain.Build` on an already tokenized stream. -/
def Chain.BuildTokens (c : Chain) (toks : List Str) : Go Chain :=
  match buildLoop c.chain (makePrefix c.prefixLen) toks with
  | Except.error e => Except.error e
  | Except.ok (m, _) => Except.ok ⟨m, c.prefixLen⟩

/-- `Chain.Build` on the text held by the reader. -/
def Chain.Build (c : Chain) (r : Str) : Go Chain :=
  Chain.BuildTokens c (fscanTokens r)

/-- The start test of `Chain.Generate`:
`len(each) > 6 && each[:6] == "<end/>" && !strings.Contains(each[6:], "<end/>")`. -/
def isStartKey (each : Str) : Bool :=
  decide (each.length > 6) && (each.take 6 == endMarker) &&
    !Contains (each.drop 6) endMarker

/-- The list `possible_prefixes` collected by `Chain.Generate`. -/
def possiblePrefixes (c : Chain) : List Str :=
  (Table.keys c.chain).filter isStartKey

/-- The loop `for i := 0; i < c.prefixLen; i++ { p[i] = arr[i] }`. -/
def initWindow : Nat → List Str → Go Prefix
  | 0, _ => Except.ok []
  | _ + 1, [] => Except.error GoPanic.indexOutOfRange
  | k + 1, a :: arr =>
    match initWindow k arr with
    | Except.error e => Except.error e
    | Except.ok p => Except.ok (a :: p)

/-- The walk `for i := 0; i < n; i++ { ... }` of `Chain.Generate`, from
iteration `i` on.  `fuel` bounds the iterations left; `Chain.Generate` passes
`n.toNat`, which the loop test `i < n` never outlasts.  `len(choices)` is not
zero where `rand.Intn` is called, so that call cannot panic. -/
def genLoop (c : Chain) (n : Int) (single : Bool) :
    Nat → Nat → (Nat → Nat) → Prefix → List Str → Go (List Str)
  | 0, _, _, _, words => Except.ok words
  | fuel + 1, i, rnd, p, words =>
    if (i : Int) < n then
      let choices := Table.get c.chain (Prefix.String p)
      if choices.length = 0 then Except.ok words
      else
        let next := choices.getD (rnd 0 % choices.length) []
        if single && Contains next endMarker then Except.ok words
        else
          let words1 := words ++ [next]
          let words2 := if (i : Int) = n - 1 then words1 ++ [truncMarker] else words1
          match Prefix.Shift p next with
          | Except.error e => Except.error e
          | Except.ok p1 => genLoop c n single fuel (i + 1) (nextDraws rnd) p1 words2
    else Except.ok words

/-- The slice `s[6:]`. -/
def sliceFrom6 (s : Str) : Go Str :=
  if 6 ≤ s.length then Except.ok (s.drop 6) else Except.error GoPanic.sliceBounds

/-- The slice `words` at the end of `Chain.Generate`, before joining. -/
def Chain.GenerateWords (c : Chain) (n : Int) (single : Bool) (rnd : Nat → Nat) :
    Go (List Str) :=
  let possible_prefixes := possiblePrefixes c
  match Intn rnd possible_prefixes.length with
  | Except.error e => Except.error e
  | Except.ok r =>
    let first_prefix := possible_prefixes.getD r []
    let arr := Split first_prefix
    match initWindow c.prefixLen arr with
    | Except.error e => Except.error e
    | Except.ok p =>
      let words := List.cons first_prefix []
      genLoop c n single n.toNat 0 (nextDraws rnd) p words

/-- `Chain.Generate`. -/
def Chain.Generate (c : Chain) (n : Int) (single : Bool) (rnd : Nat → Nat) : Go Str :=
  match Chain.GenerateWords c n single rnd with
  | Except.error e => Except.error e
  | Except.ok words => sliceFrom6 (Join words)

/-! ## parseScrape -/

/-- A decoded JSON value, as far as `parseScrape` inspects it. -/
inductive JsonValue where
  | str (s : Str)
  | other
  deriving DecidableEq, Repr

/-- One element of the `messages` array, a JSON object: its fields `user` and
`text`, each possibly absent. -/
structure Message where
  user : Option JsonValue
  text : Option JsonValue
  deriving DecidableEq, Repr

/-- `checkUser`: the message's user is the string `user`, or `user` is empty. -/
def checkUser (result : Message) (user : Str) : Bool :=
  result.user == some (JsonValue.str user) || user == []

/-- The loop of `parseScrape` over the decoded messages. -/
def parseLoop (user : Str) (wholebody : Str) : List Message → Go Str
  | [] => Except.ok wholebody
  | result :: rest =>
    if checkUser result user then
      match result.text with
      | none => parseLoop user wholebody rest
      | some (JsonValue.str body) => parseLoop user (wholebody ++ (body ++ ' ' :: endMarker)) rest
      | some JsonValue.other => Except.error GoPanic.typeAssertion
    else parseLoop user wholebody rest

/-- `parseScrape`, on the decoded `messages` array. -/
def parseScrape (results : List Message) (user : Str) : Go Str :=
  parseLoop user [] results


/-! ## Notions used to state the properties -/

/-- The tokens that come right after an occurrence of the window `w` in the
stream `l`, in stream order. -/
def followers (w : List Str) : List Str → List Str
  | [] => []
  | x :: xs =>
    (if (x :: xs).take w.length = w then ((x :: xs).drop w.length).head?.toList else [])
      ++ followers w xs

/-- The number of positions of the stream `l` at which the window `w`
immediately precedes the token `t`. -/
def precedesCount (w : List Str) (t : Str) : List Str → Nat
  | [] => 0
  | x :: xs =>
    (if (x :: xs).take w.length = w ∧ ((x :: xs).drop w.length).head? = some t then 1 else 0)
      + precedesCount w t xs

/-- The stream padded in front with `n` empty strings. -/
def padded (n : Nat) (toks : List Str) : List Str := List.replicate n [] ++ toks

/-- The window of `n` tokens starting at position `i` of the stream `l`. -/
def windowAt (n : Nat) (l : List Str) (i : Nat) : List Str := (l.drop i).take n


/-- The start-key condition in the words of the specification: cut at single
spaces, the first token of the key is exactly the end marker, at least one
token follows it, and no token after the first contains the end marker. -/
def specStartKey (key : Str) : Bool :=
  match Split key with
  | [] => false
  | first :: rest =>
    first == endMarker && !rest.isEmpty && rest.all (fun t => !Contains t endMarker)

/-- The candidate list the walk reads at its iteration `j`, when it started
from the window `p` and has appended the tokens `toks`: the list stored under
the key of the `p.length` tokens that precede position `j` of `toks`. -/
def candidatesAt (c : Chain) (p toks : List Str) (j : Nat) : List Str :=
  Table.get c.chain (Prefix.String (windowAt p.length (p ++ toks) j))

/-- The candidate the walk draws at its iteration `j` (draw number `j` of the
stream `rnd` the walk is started with). -/
def drawAt (c : Chain) (rnd : Nat → Nat) (p toks : List Str) (j : Nat) : Str :=
  (candidatesAt c p toks j).getD (rnd j % (candidatesAt c p toks j).length) []

/-- Iteration `j` of the walk goes on: the current window has at least one
candidate and the boundary rule does not stop the walk. -/
def continuesAt (c : Chain) (single : Bool) (rnd : Nat → Nat) (p toks : List Str)
    (j : Nat) : Prop :=
  candidatesAt c p toks j ≠ [] ∧ ¬ (single = true ∧ endMarker <:+: drawAt c rnd p toks j)

/-- The tokens `toks` are those the walk appends, one per iteration, from the
window `p`: each iteration goes on and appends the candidate it draws. -/
def IsWalk (c : Chain) (single : Bool) (rnd : Nat → Nat) (p toks : List Str) : Prop :=
  ∀ j, j < toks.length →
    continuesAt c single rnd p toks j ∧ toks[j]? = some (drawAt c rnd p toks j)

/-- The key `Chain.Generate` starts from: the element of `possible_prefixes`
at the index drawn first. -/
def chosenKey (c : Chain) (rnd : Nat → Nat) : Str :=
  (possiblePrefixes c).getD (rnd 0 % (possiblePrefixes c).length) []

/-- The window `Chain.Generate` starts from: the first `prefixLen` pieces of
the chosen key cut at single spaces. -/
def seedWindow (c : Chain) (rnd : Nat → Nat) : List Str :=
  (Split (chosenKey c rnd)).take c.prefixLen

/-- The number of space-separated tokens of an output string, not counting
the truncation marker. -/
def wordCount (out : Str) : Nat :=
  ((Split out).filter (fun t => decide (t ≠ [] ∧ t ≠ truncMarker))).length

/-- The chain `Chain.Build` makes of a text on a fresh chain of prefix length
`n` (the fresh chain itself, should `Build` panic); used for examples. -/
def chainOf (n : Nat) (text : String) : Chain :=
  match Chain.Build (NewChain n) text.toList with
  | Except.ok c => c
  | Except.error _ => NewChain n

/-- The messages `a b` and `c d e f` of one user, as decoded from JSON. -/
def twoMessages : List Message :=
  [⟨some (JsonValue.str "U1".toList), some (JsonValue.str "a b".toList)⟩,
   ⟨some (JsonValue.str "U1".toList), some (JsonValue.str "c d e f".toList)⟩]

/-- The texts of the messages `parseScrape` selects: those that pass
`checkUser` and have a string `text`, in original order. -/
def selectedTexts (user : Str) : List Message → List Str
  | [] => []
  | result :: rest =>
    if checkUser result user then
      match result.text with
      | some (JsonValue.str body) => body :: selectedTexts user rest
      | _ => selectedTexts user rest
    else selectedTexts user rest

/-- The selected texts in order, each followed by a space and the end marker,
with nothing between one marker and the next text. -/
def markedTexts : List Str → Str
  | [] => []
  | t :: ts => t ++ (' ' :: endMarker) ++ markedTexts ts

/-- The tokens of the texts with one end-marker token after every text. -/
def separatedTokens : List Str → List Str
  | [] => []
  | t :: ts => fscanTokens t ++ endMarker :: separatedTokens ts

/-- The tokens after the first text when each end marker is written directly
in front of the text that follows it: the last marker stands alone. -/
def fusedTail : List Str → List Str
  | [] => [endMarker]
  | t :: ts => fscanTokens (endMarker ++ t) ++ fusedTail ts

/-- The tokens of the texts when each end marker is fused with the text that
follows it. -/
def fusedTokens : List Str → List Str
  | [] => []
  | t :: ts => fscanTokens t ++ fusedTail ts

/-- The text is empty or begins with white space. -/
def startsWithSpace (t : Str) : Bool :=
  match t with
  | [] => true
  | c :: _ => isSpace c

/-- Three messages: `a b` of user `U1`, `zzz` of user `U2`, and ` c d`, with a
leading space, of user `U1`. -/
def spacedMessages : List Message :=
  [⟨some (JsonValue.str "U1".toList), some (JsonValue.str "a b".toList)⟩,
   ⟨some (JsonValue.str "U2".toList), some (JsonValue.str "zzz".toList)⟩,
   ⟨some (JsonValue.str "U1".toList), some (JsonValue.str " c d".toList)⟩]

/-! ## Prefix.String -/

theorem Join_cons_cons (a b : Str) (l : List Str) :
    Join (a :: b :: l) = a ++ ' ' :: Join (b :: l) := rfl

theorem Join_cons_ne_nil (a : Str) {l : List Str} (h : l ≠ []) :
    Join (a :: l) = a ++ ' ' :: Join l := by
  cases l with
  | nil => exact absurd rfl h
  | cons b l => rfl

theorem append_space_inj {a b x y : Str} (ha : ' ' ∉ a) (hb : ' ' ∉ b)
    (h : a ++ ' ' :: x = b ++ ' ' :: y) : a = b ∧ x = y := by
  induction a generalizing b with
  | nil =>
    cases b with
    | nil => simpa using h
    | cons d b =>
      simp only [List.nil_append, List.cons_append, List.cons.injEq] at h
      exact absurd (h.1 ▸ List.mem_cons_self _ _) hb
  | cons c a ih =>
    cases b with
    | nil =>
      simp only [List.nil_append, List.cons_append, List.cons.injEq] at h
      exact absurd (h.1 ▸ List.mem_cons_self _ _) ha
    | cons d b =>
      simp only [List.cons_append, List.cons.injEq] at h
      have ha2 : ' ' ∉ a := fun hm => ha (List.mem_cons_of_mem _ hm)
      have hb2 : ' ' ∉ b := fun hm => hb (List.mem_cons_of_mem _ hm)
      obtain ⟨h1, h2⟩ := ih ha2 hb2 h.2
      exact ⟨by rw [h.1, h1], h2⟩

theorem count_space_Join (l : List Str) (h : l ≠ []) :
    (Join l).count ' ' = (l.length - 1) + (l.map (List.count ' ')).sum := by
  induction l with
  | nil => exact absurd rfl h
  | cons a l ih =>
    cases l with
    | nil => simp [Join]
    | cons b l =>
      rw [Join_cons_cons, List.count_append, List.count_cons_self, ih (by simp)]
      simp only [List.length_cons, List.map_cons, List.sum_cons]
      omega

theorem space_free_of_Join_eq {w v : List Str} (hlen : w.length = v.length)
    (hv : ∀ t ∈ v, ' ' ∉ t) (h : Join w = Join v) : ∀ t ∈ w, ' ' ∉ t := by
  cases w with
  | nil => simp
  | cons a w =>
    have hvne : v ≠ [] := by
      intro hv0; rw [hv0] at hlen; simp at hlen
    have h1 := count_space_Join (a :: w) (by simp)
    have h2 := count_space_Join v hvne
    have hv0 : (v.map (List.count ' ')).sum = 0 := by
      apply List.sum_eq_zero
      intro x hx
      obtain ⟨t, ht, rfl⟩ := List.mem_map.1 hx
      exact List.count_eq_zero.2 (hv t ht)
    rw [h, h2, hv0, hlen] at h1
    have h3 : ((a :: w).map (List.count ' ')).sum = 0 := by omega
    intro t ht
    have := (List.sum_eq_zero_iff.1 h3) (t.count ' ') (List.mem_map.2 ⟨t, ht, rfl⟩)
    exact List.count_eq_zero.1 this

theorem Join_inj_of_space_free : ∀ {w v : List Str}, w.length = v.length →
    (∀ t ∈ w, ' ' ∉ t) → (∀ t ∈ v, ' ' ∉ t) → Join w = Join v → w = v
  | [], [], _, _, _, _ => rfl
  | [], _ :: _, hl, _, _, _ => by simp at hl
  | _ :: _, [], hl, _, _, _ => by simp at hl
  | [a], [b], _, _, _, h => by simpa [Join] using h
  | [_], _ :: _ :: _, hl, _, _, _ => by simp at hl
  | _ :: _ :: _, [_], hl, _, _, _ => by simp at hl
  | a :: a2 :: w, b :: b2 :: v, hl, hw, hv, h => by
    rw [Join_cons_cons, Join_cons_cons] at h
    obtain ⟨h1, h2⟩ := append_space_inj (hw a (by simp)) (hv b (by simp)) h
    have := Join_inj_of_space_free (w := a2 :: w) (v := b2 :: v) (by simpa using hl)
      (fun t ht => hw t (List.mem_cons_of_mem _ ht)) (fun t ht => hv t (List.mem_cons_of_mem _ ht)) h2
    rw [h1, this]

theorem Join_inj {w v : List Str} (hlen : w.length = v.length)
    (hv : ∀ t ∈ v, ' ' ∉ t) (h : Join w = Join v) : w = v :=
  Join_inj_of_space_free hlen (space_free_of_Join_eq hlen hv h) hv h

/-! ## The table -/

theorem Table.get_set (m : Table) (k : Str) (v : List Str) (key : Str) :
    Table.get (Table.set m k v) key = if k = key then v else Table.get m key := by
  induction m with
  | nil => simp [Table.set, Table.get]
  | cons e m ih =>
    obtain ⟨k0, v0⟩ := e
    by_cases h0 : k0 = k
    · subst h0
      by_cases h1 : k0 = key <;> simp [Table.set, Table.get, h1]
    · by_cases h1 : k0 = key
      · subst h1
        have : ¬ k = k0 := fun h => h0 h.symm
        simp [Table.set, Table.get, h0, this]
      · simp [Table.set, Table.get, h0, h1, ih]

/-! ## Chain.Build -/

theorem followers_short (w : List Str) : ∀ l : List Str, l.length ≤ w.length →
    followers w l = []
  | [], _ => rfl
  | x :: xs, h => by
    have h1 : (x :: xs).drop w.length = [] := List.drop_eq_nil_of_le h
    have h2 : xs.length ≤ w.length := by simp at h; omega
    simp [followers, h1, followers_short w xs h2]

theorem followers_step (w p : List Str) (s : Str) (rest : List Str)
    (hp : p.length = w.length) (hpos : 1 ≤ p.length) :
    followers w (p ++ s :: rest) =
      (if p = w then [s] else []) ++ followers w (p.tail ++ [s] ++ rest) := by
  cases p with
  | nil => simp at hpos
  | cons a p =>
    have h1 : (a :: (p ++ s :: rest)).take w.length = a :: p := by
      rw [← hp, ← List.cons_append]; exact List.take_left _ _
    have h2 : (a :: (p ++ s :: rest)).drop w.length = s :: rest := by
      rw [← hp, ← List.cons_append]; exact List.drop_left _ _
    show (if (a :: (p ++ s :: rest)).take w.length = w
        then ((a :: (p ++ s :: rest)).drop w.length).head?.toList else [])
        ++ followers w (p ++ s :: rest) = _
    rw [h1, h2]
    simp

theorem Table.keys_set (m : Table) (k : Str) (v : List Str) :
    ∀ key ∈ Table.keys (Table.set m k v), key = k ∨ key ∈ Table.keys m := by
  induction m with
  | nil => simp [Table.set, Table.keys]
  | cons e m ih =>
    obtain ⟨k0, v0⟩ := e
    intro key hkey
    by_cases h0 : k0 = k
    · simp only [Table.set, h0, if_true, Table.keys, List.map_cons, List.mem_cons] at hkey ⊢
      rcases hkey with h | h
      · exact Or.inl h
      · exact Or.inr (Or.inr h)
    · simp only [Table.set, h0, if_false, Table.keys, List.map_cons, List.mem_cons] at hkey ⊢
      rcases hkey with h | h
      · exact Or.inr (Or.inl h)
      · rcases ih key h with h1 | h1
        · exact Or.inl h1
        · exact Or.inr (Or.inr h1)

theorem buildLoop_spec (n : Nat) (hn : 1 ≤ n) : ∀ (toks : List Str) (m : Table) (p : Prefix),
    p.length = n → (∀ t ∈ p, ' ' ∉ t) → (∀ t ∈ toks, ' ' ∉ t) →
    ∃ m1 p1, buildLoop m p toks = Except.ok (m1, p1) ∧
      (∀ w : List Str, w.length = n →
        Table.get m1 (Join w) = Table.get m (Join w) ++ followers w (p ++ toks)) ∧
      (∀ key ∈ Table.keys m1, key ∈ Table.keys m ∨
        ∃ i, i < toks.length ∧ key = Join (windowAt n (p ++ toks) i))
  | [], m, p, hp, _, _ => by
    refine ⟨m, p, rfl, ?_, fun key hkey => Or.inl hkey⟩
    intro w hw
    rw [List.append_nil, followers_short w p (by omega), List.append_nil]
  | s :: rest, m, p, hp, hps, hts => by
    obtain ⟨a, q, rfl⟩ : ∃ a q, p = a :: q := by
      cases p with
      | nil => simp at hp; omega
      | cons a q => exact ⟨a, q, rfl⟩
    have hq : (q ++ [s]).length = n := by simpa using hp
    have hqs : ∀ t ∈ q ++ [s], ' ' ∉ t := by
      intro t ht
      rcases List.mem_append.1 ht with h | h
      · exact hps t (List.mem_cons_of_mem _ h)
      · rw [List.mem_singleton] at h
        exact h ▸ hts s (List.mem_cons_self _ _)
    obtain ⟨m1, p1, hrun, hget, hkeys⟩ := buildLoop_spec n hn rest
      (Table.set m (Prefix.String (a :: q)) (Table.get m (Prefix.String (a :: q)) ++ [s]))
      (q ++ [s]) hq hqs (fun t ht => hts t (List.mem_cons_of_mem _ ht))
    refine ⟨m1, p1, ?_, ?_, ?_⟩
    · simpa [buildLoop, Prefix.Shift] using hrun
    · intro w hw
      rw [hget w hw, Table.get_set, followers_step w (a :: q) s rest (by omega) (by omega)]
      simp only [Prefix.String, List.tail_cons]
      by_cases h : a :: q = w
      · subst h
        simp
      · have h2 : ¬ Join (a :: q) = Join w := fun hj =>
          h (Join_inj (by omega) hps hj.symm).symm
        simp [h, h2]
    · intro key hkey
      rcases hkeys key hkey with h | ⟨i, hi, h⟩
      · rcases Table.keys_set _ _ _ key h with h1 | h1
        · refine Or.inr ⟨0, by simp, ?_⟩
          rw [h1, Prefix.String, windowAt, List.drop_zero, ← hp]
          exact congrArg Join (List.take_left _ _).symm
        · exact Or.inl h1
      · refine Or.inr ⟨i + 1, by simpa using hi, ?_⟩
        rw [h]
        simp [windowAt]

theorem count_followers (w : List Str) (t : Str) : ∀ l : List Str,
    (followers w l).count t = precedesCount w t l
  | [] => rfl
  | x :: xs => by
    rw [followers, precedesCount, List.count_append, count_followers w t xs]
    congr 1
    by_cases h : (x :: xs).take w.length = w
    · cases hd : ((x :: xs).drop w.length).head? with
      | none => simp [h]
      | some u =>
        by_cases hu : u = t
        · simp [h, hu]
        · have hu2 : ¬ (u == t) = true := by simpa using hu
          simp [h, hu, List.count_cons, hu2]
    · simp [h]

theorem followers_ne_nil (w : List Str) : ∀ (l : List Str) (i : Nat),
    i + w.length < l.length → windowAt w.length l i = w → followers w l ≠ []
  | [], _, h, _ => by simp at h
  | x :: xs, 0, h, hw => by
    rw [windowAt, List.drop_zero] at hw
    rw [followers, if_pos hw]
    cases hd : (x :: xs).drop w.length with
    | nil =>
      have := List.drop_eq_nil_iff.1 hd
      omega
    | cons u us => simp
  | x :: xs, i + 1, h, hw => by
    have h1 : followers w xs ≠ [] :=
      followers_ne_nil w xs i (by simp at h; omega) (by simpa [windowAt] using hw)
    rw [followers]
    simp [h1]

theorem BuildTokens_spec (n : Nat) (hn : 1 ≤ n) (toks : List Str)
    (hts : ∀ t ∈ toks, ' ' ∉ t) :
    ∃ c, Chain.BuildTokens (NewChain n) toks = Except.ok c ∧ c.prefixLen = n ∧
      (∀ w : List Str, w.length = n →
        Table.get c.chain (Join w) = followers w (padded n toks)) ∧
      (∀ key ∈ Table.keys c.chain,
        ∃ i, i < toks.length ∧ key = Join (windowAt n (padded n toks) i)) := by
  obtain ⟨m1, p1, hrun, hget, hkeys⟩ := buildLoop_spec n hn toks [] (makePrefix n)
    (by simp [makePrefix]) (by simp [makePrefix]) hts
  refine ⟨⟨m1, n⟩, ?_, rfl, ?_, ?_⟩
  · simp [Chain.BuildTokens, NewChain, hrun]
  · intro w hw
    simpa [Table.get, padded, makePrefix] using hget w hw
  · intro key hkey
    rcases hkeys key hkey with h | h
    · simp [Table.keys] at h
    · exact h

theorem length_windowAt_padded (n : Nat) (toks : List Str) (i : Nat) (hi : i < toks.length) :
    (windowAt n (padded n toks) i).length = n := by
  simp [windowAt, padded]
  omega

/-- C1: for a prefix length `n ≥ 1` and a stream of space-free tokens,
`Chain.Build` on a fresh chain returns a chain in which, for every window `w`
of `n` tokens and every token `t`, the number of occurrences of `t` in
`chain[w.String()]` is the number of positions at which `w` immediately
precedes `t` in the stream padded with `n` empty strings, and every window
observed during the scan has a non-empty candidate list. -/
theorem Build_candidate_counts (n : Nat) (toks : List Str) (hn : 1 ≤ n)
    (hts : ∀ t ∈ toks, ' ' ∉ t) :
    ∃ c, Chain.BuildTokens (NewChain n) toks = Except.ok c ∧
      (∀ (w : List Str) (t : Str), w.length = n →
        (Table.get c.chain (Prefix.String w)).count t
          = precedesCount w t (padded n toks)) ∧
      (∀ i, i < toks.length →
        Table.get c.chain (Prefix.String (windowAt n (padded n toks) i)) ≠ []) := by
  obtain ⟨c, hc, _, hget, _⟩ := BuildTokens_spec n hn toks hts
  refine ⟨c, hc, ?_, ?_⟩
  · intro w t hw
    rw [Prefix.String, hget w hw, count_followers]
  · intro i hi
    have hlen := length_windowAt_padded n toks i hi
    rw [Prefix.String, hget _ hlen]
    apply followers_ne_nil _ _ i
    · rw [hlen]; simp [padded]; omega
    · rw [hlen]

/-- Witness for C1 on the stream `a b <end/> c d <end/> a b c <end/>` with
prefix length 2: the hypotheses hold and the conclusion follows. -/
theorem Build_candidate_counts_witness :
    (1 ≤ 2 ∧ ∀ t ∈ fscanTokens "a b <end/> c d <end/> a b c <end/>".toList, ' ' ∉ t) ∧
    ∃ c, Chain.Build (NewChain 2) "a b <end/> c d <end/> a b c <end/>".toList
        = Except.ok c ∧
      (Table.get c.chain "a b".toList).count "c".toList = 1 ∧
      Table.get c.chain "<end/> c".toList ≠ [] := by
  refine ⟨⟨by decide, by decide⟩, ?_⟩
  obtain ⟨c, hc, hcount, hne⟩ := Build_candidate_counts 2
    (fscanTokens "a b <end/> c d <end/> a b c <end/>".toList) (by decide) (by decide)
  refine ⟨c, hc, ?_, ?_⟩
  · exact (hcount ["a".toList, "b".toList] "c".toList rfl).trans (by decide)
  · exact hne 4 (by decide)

/-- C2: `Chain.Build` keeps the candidates in append order with duplicates:
for a prefix length `n ≥ 1` and a stream of space-free tokens, the list stored
under the key of every window `w` of `n` tokens is exactly the sequence, in
stream order, of the tokens that followed `w` in the padded stream, and every
key of the table is the key of a window observed during the scan. -/
theorem Build_candidates_in_stream_order (n : Nat) (toks : List Str) (hn : 1 ≤ n)
    (hts : ∀ t ∈ toks, ' ' ∉ t) :
    ∃ c, Chain.BuildTokens (NewChain n) toks = Except.ok c ∧
      (∀ w : List Str, w.length = n →
        Table.get c.chain (Prefix.String w) = followers w (padded n toks)) ∧
      (∀ key ∈ Table.keys c.chain, ∃ i, i < toks.length ∧
        key = Prefix.String (windowAt n (padded n toks) i)) := by
  obtain ⟨c, hc, _, hget, hkeys⟩ := BuildTokens_spec n hn toks hts
  exact ⟨c, hc, hget, hkeys⟩

/-- Witness for C2, the example of the specification: for the stream
`a b <end/> c d <end/> a b c <end/>` with prefix length 2 the list stored under
the key `a b` is exactly `<end/>`, `c`. -/
theorem Build_candidates_in_stream_order_witness :
    (1 ≤ 2 ∧ ∀ t ∈ fscanTokens "a b <end/> c d <end/> a b c <end/>".toList, ' ' ∉ t) ∧
    ∃ c, Chain.Build (NewChain 2) "a b <end/> c d <end/> a b c <end/>".toList
        = Except.ok c ∧
      Table.get c.chain "a b".toList = ["<end/>".toList, "c".toList] := by
  refine ⟨⟨by decide, by decide⟩, ?_⟩
  obtain ⟨c, hc, hget, _⟩ := Build_candidates_in_stream_order 2
    (fscanTokens "a b <end/> c d <end/> a b c <end/>".toList) (by decide) (by decide)
  exact ⟨c, hc, (hget ["a".toList, "b".toList] rfl).trans (by decide)⟩

/-! ## strings.Contains, strings.Split -/

theorem Contains_iff (s sub : Str) : Contains s sub = true ↔ sub <:+: s := by
  induction s with
  | nil => simp [Contains, List.isEmpty_iff]
  | cons c cs ih =>
    rw [Contains, Bool.or_eq_true, ih, List.isPrefixOf_iff_prefix, List.infix_cons_iff]

theorem Contains_eq_false_iff (s sub : Str) : Contains s sub = false ↔ ¬ sub <:+: s := by
  rw [← Contains_iff, Bool.not_eq_true]

theorem prefix_of_prefix_append_space {m x y : Str} (hm : ' ' ∉ m)
    (h : m <+: x ++ ' ' :: y) : m <+: x := by
  rcases List.prefix_or_prefix_of_prefix h (List.prefix_append x (' ' :: y)) with h1 | h1
  · exact h1
  · obtain ⟨u, rfl⟩ := h1
    rw [List.prefix_append_right_inj] at h
    cases u with
    | nil => simp
    | cons d u =>
      have hd : d = ' ' := by
        obtain ⟨t, ht⟩ := h
        simp only [List.cons_append, List.cons.injEq] at ht
        exact ht.1
      exact absurd (by simp [hd]) hm

theorem infix_append_space {m a b : Str} (hm : ' ' ∉ m)
    (h : m <:+: a ++ ' ' :: b) : m <:+: a ∨ m <:+: b := by
  induction a with
  | nil =>
    rw [List.nil_append, List.infix_cons_iff] at h
    rcases h with h | h
    · have := prefix_of_prefix_append_space (x := []) hm (by simpa using h)
      exact Or.inl this.isInfix
    · exact Or.inr h
  | cons c a ih =>
    rw [List.cons_append, List.infix_cons_iff] at h
    rcases h with h | h
    · have := prefix_of_prefix_append_space (x := c :: a) hm (by simpa using h)
      exact Or.inl this.isInfix
    · rcases ih h with h1 | h1
      · exact Or.inl (List.infix_cons h1)
      · exact Or.inr h1

theorem space_not_mem_endMarker : ' ' ∉ endMarker := by decide

theorem not_infix_Join : ∀ l : List Str, (∀ t ∈ l, ¬ endMarker <:+: t) →
    ¬ endMarker <:+: Join l
  | [], _ => by
    rw [Join, List.infix_nil]
    decide
  | [w], h => by simpa [Join] using h w (by simp)
  | w :: w2 :: ws, h => by
    rw [Join_cons_cons]
    intro hin
    rcases infix_append_space space_not_mem_endMarker hin with h1 | h1
    · exact h w (by simp) h1
    · exact not_infix_Join (w2 :: ws) (fun t ht => h t (List.mem_cons_of_mem _ ht)) h1

theorem Split_ne_nil : ∀ s : Str, Split s ≠ []
  | [] => by simp [Split]
  | c :: cs => by
    rw [Split]
    split
    · simp
    · split <;> simp

theorem Join_cons_head (c : Char) (h : Str) (t : List Str) :
    Join ((c :: h) :: t) = c :: Join (h :: t) := by
  cases t <;> rfl

theorem Join_Split : ∀ s : Str, Join (Split s) = s
  | [] => rfl
  | c :: cs => by
    have ih := Join_Split cs
    rw [Split]
    split
    · next hc => rw [Join_cons_ne_nil _ (Split_ne_nil cs), ih, hc]; rfl
    · split
      · next hs => exact absurd hs (Split_ne_nil cs)
      · next h t hs => rw [Join_cons_head, ← hs, ih]

/-! ## The start test of Chain.Generate -/

theorem isStartKey_iff (key : Str) :
    isStartKey key = true ↔
      ∃ rest, key = endMarker ++ rest ∧ rest ≠ [] ∧ ¬ endMarker <:+: rest := by
  simp only [isStartKey, Bool.and_eq_true, decide_eq_true_eq, beq_iff_eq, Bool.not_eq_true',
    Contains_eq_false_iff]
  constructor
  · rintro ⟨⟨hlen, htake⟩, hno⟩
    refine ⟨key.drop 6, ?_, ?_, hno⟩
    · rw [← htake]; exact (List.take_append_drop 6 key).symm
    · intro h
      have := List.drop_eq_nil_iff.1 h
      omega
  · rintro ⟨rest, rfl, hne, hno⟩
    have hpos : 0 < rest.length := List.length_pos.2 hne
    have h6 : endMarker.length = 6 := rfl
    refine ⟨⟨?_, ?_⟩, ?_⟩
    · rw [List.length_append, h6]; omega
    · rw [← h6]; exact List.take_left _ _
    · rw [← h6, List.drop_left]; exact hno

theorem isStartKey_of_specStartKey (key : Str) (h : specStartKey key = true) :
    isStartKey key = true := by
  unfold specStartKey at h
  cases hs : Split key with
  | nil => exact absurd hs (Split_ne_nil key)
  | cons first rest =>
    rw [hs] at h
    simp only [Bool.and_eq_true, beq_iff_eq, Bool.not_eq_true', List.isEmpty_eq_false,
      List.all_eq_true, Contains_eq_false_iff] at h
    obtain ⟨⟨hfirst, hrest⟩, hall⟩ := h
    have hkey : key = endMarker ++ ' ' :: Join rest := by
      rw [← Join_Split key, hs, hfirst, Join_cons_ne_nil _ hrest]
    rw [isStartKey_iff]
    refine ⟨' ' :: Join rest, hkey, by simp, ?_⟩
    intro hin
    rcases infix_append_space (a := []) space_not_mem_endMarker (by simpa using hin) with h1 | h1
    · rw [List.infix_nil] at h1
      exact absurd h1 (by decide)
    · exact not_infix_Join rest hall h1

/-- C3 as the code has it: `Chain.Generate` treats a key as a candidate
starting key if and only if the key begins with the six characters `<end/>`,
at least one more character follows, and `<end/>` does not occur again in the
remainder; every key whose first token is exactly the marker, followed by at
least one token, with no further marker, passes the test. -/
theorem start_test_characterised (key : Str) :
    (isStartKey key = true ↔
      ∃ rest, key = endMarker ++ rest ∧ rest ≠ [] ∧ ¬ endMarker <:+: rest) ∧
    (specStartKey key = true → isStartKey key = true) :=
  ⟨isStartKey_iff key, isStartKey_of_specStartKey key⟩

/-- The start test at the key `<end/> c`, whose first token is the marker. -/
theorem start_test_characterised_witness :
    specStartKey "<end/> c".toList = true ∧ isStartKey "<end/> c".toList = true :=
  ⟨by decide, (start_test_characterised "<end/> c".toList).2 (by decide)⟩

/-- C3 fails as stated: the key `<end/>c d`, which `Chain.Build` stores for
the text `a b <end/>c d e <end/>` with prefix length 2, passes the start test
although its first token is `<end/>c`, not the marker itself. -/
theorem start_test_accepts_fused_marker :
    (∃ c, Chain.Build (NewChain 2) "a b <end/>c d e <end/>".toList = Except.ok c ∧
      "<end/>c d".toList ∈ Table.keys c.chain) ∧
    isStartKey "<end/>c d".toList = true ∧
    (Split "<end/>c d".toList).head? = some "<end/>c".toList ∧
    specStartKey "<end/>c d".toList = false := by
  refine ⟨⟨_, rfl, by decide⟩, by decide, by decide, by decide⟩

/-! ## The walk of Chain.Generate -/

theorem windowAt_zero (p toks : List Str) : windowAt p.length (p ++ toks) 0 = p := by
  rw [windowAt, List.drop_zero, List.take_left]

theorem windowAt_shift (a : Str) (q : List Str) (next : Str) (toks : List Str) (j : Nat) :
    windowAt (a :: q).length (a :: q ++ next :: toks) (j + 1)
      = windowAt (q ++ [next]).length (q ++ [next] ++ toks) j := by
  simp [windowAt]

theorem candidatesAt_shift (c : Chain) (a : Str) (q : List Str) (next : Str)
    (toks : List Str) (j : Nat) :
    candidatesAt c (a :: q) (next :: toks) (j + 1) = candidatesAt c (q ++ [next]) toks j := by
  rw [candidatesAt, candidatesAt, windowAt_shift]

theorem drawAt_shift (c : Chain) (rnd : Nat → Nat) (a : Str) (q : List Str) (next : Str)
    (toks : List Str) (j : Nat) :
    drawAt c rnd (a :: q) (next :: toks) (j + 1)
      = drawAt c (nextDraws rnd) (q ++ [next]) toks j := by
  rw [drawAt, drawAt, candidatesAt_shift, nextDraws]

theorem continuesAt_shift (c : Chain) (single : Bool) (rnd : Nat → Nat) (a : Str)
    (q : List Str) (next : Str) (toks : List Str) (j : Nat) :
    continuesAt c single rnd (a :: q) (next :: toks) (j + 1)
      ↔ continuesAt c single (nextDraws rnd) (q ++ [next]) toks j := by
  rw [continuesAt, continuesAt, candidatesAt_shift, drawAt_shift]

theorem candidatesAt_zero (c : Chain) (p toks : List Str) :
    candidatesAt c p toks 0 = Table.get c.chain (Prefix.String p) := by
  rw [candidatesAt, windowAt_zero]

theorem drawAt_zero (c : Chain) (rnd : Nat → Nat) (p toks : List Str) :
    drawAt c rnd p toks 0 = (Table.get c.chain (Prefix.String p)).getD
      (rnd 0 % (Table.get c.chain (Prefix.String p)).length) [] := by
  rw [drawAt, candidatesAt_zero]

/-- What the walk returns: the words so far, the tokens of a walk, and the
truncation marker exactly when the last permitted iteration appended a token. -/
theorem genLoop_trace (c : Chain) (n : Int) (single : Bool) :
    ∀ (fuel i : Nat) (rnd : Nat → Nat) (p : Prefix) (words out : List Str),
      n ≤ (i : Int) + fuel →
      genLoop c n single fuel i rnd p words = Except.ok out →
      ∃ toks : List Str, IsWalk c single rnd p toks ∧
        ((i : Int) + toks.length < n → ¬ continuesAt c single rnd p toks toks.length) ∧
        (toks ≠ [] → (i : Int) + toks.length ≤ n) ∧
        out = words ++ toks ++
          (if toks ≠ [] ∧ (i : Int) + toks.length = n then [truncMarker] else []) := by
  intro fuel
  induction fuel with
  | zero =>
    intro i rnd p words out hf h
    simp only [genLoop, Except.ok.injEq] at h
    refine ⟨[], fun j hj => absurd hj (by simp), ?_, fun h0 => absurd rfl h0, by simp [h]⟩
    intro hlt
    simp at hlt hf
    omega
  | succ fuel ih =>
    intro i rnd p words out hf h
    rw [genLoop] at h
    by_cases hin : (i : Int) < n
    · rw [if_pos hin] at h
      by_cases hch : (Table.get c.chain (Prefix.String p)).length = 0
      · simp only [hch, if_true, Except.ok.injEq] at h
        refine ⟨[], fun j hj => absurd hj (by simp), ?_, fun h0 => absurd rfl h0, by simp [h]⟩
        intro _ hcont
        apply hcont.1
        rw [List.length_nil, candidatesAt_zero]
        exact List.length_eq_zero.1 hch
      · simp only [hch, if_false] at h
        by_cases hstop : (single && Contains ((Table.get c.chain (Prefix.String p)).getD
            (rnd 0 % (Table.get c.chain (Prefix.String p)).length) []) endMarker) = true
        · simp only [hstop, if_true, Except.ok.injEq] at h
          refine ⟨[], fun j hj => absurd hj (by simp), ?_, fun h0 => absurd rfl h0, by simp [h]⟩
          intro _ hcont
          apply hcont.2
          rw [Bool.and_eq_true, Contains_iff] at hstop
          rw [List.length_nil, drawAt_zero]
          exact hstop
        · rw [if_neg hstop] at h
          rcases p with _ | ⟨a, q⟩
          · simp [Prefix.Shift] at h
          · simp only [Prefix.Shift] at h
            generalize hnx : (Table.get c.chain (Prefix.String (a :: q))).getD
              (rnd 0 % (Table.get c.chain (Prefix.String (a :: q))).length) [] = next at h hstop
            obtain ⟨toks, hwalk, hstopped, hle, hout⟩ := ih (i + 1) (nextDraws rnd) _ _ out
              (by push_cast at hf ⊢; omega) h
            have hnostop : ¬ (single = true ∧ endMarker <:+: next) := by
              rw [← Contains_iff, ← Bool.and_eq_true]
              exact hstop
            refine ⟨next :: toks, ?_, ?_, ?_, ?_⟩
            · intro j hj
              cases j with
              | zero =>
                refine ⟨⟨?_, ?_⟩, ?_⟩
                · rw [candidatesAt_zero]
                  exact fun h0 => hch (by rw [h0]; rfl)
                · rw [drawAt_zero, hnx]
                  exact hnostop
                · rw [drawAt_zero, hnx]
                  simp
              | succ j =>
                have := hwalk j (by simpa using hj)
                rw [continuesAt_shift, drawAt_shift]
                simpa using this
            · intro hlt
              rw [List.length_cons, continuesAt_shift]
              apply hstopped
              rw [List.length_cons] at hlt
              push_cast at hlt ⊢
              omega
            · intro _
              by_cases ht : toks = []
              · subst ht
                simp
                omega
              · have := hle ht
                push_cast at this ⊢
                simp only [List.length_cons]
                push_cast
                omega
            · rw [hout]
              by_cases hlast : (i : Int) = n - 1
              · have ht : toks = [] := by
                  by_contra ht
                  have := hle ht
                  have hpos := List.length_pos.2 ht
                  push_cast at this
                  omega
                subst ht
                have h1 : (i : Int) + 1 = n := by omega
                simp [hlast, h1]
              · by_cases ht : toks = []
                · subst ht
                  have h1 : ¬ (i : Int) + 1 = n := by omega
                  simp [hlast, h1]
                · have h1 : ((i : Int) + 1 + toks.length = n) ↔
                      ((i : Int) + (toks.length + 1 : Nat) = n) := by
                    push_cast
                    constructor <;> intro <;> omega
                  simp only [hlast, if_false, ht, ne_eq, not_false_eq_true, true_and,
                    List.length_cons, reduceCtorEq, List.append_assoc, List.singleton_append]
                  push_cast at h1 ⊢
                  simp only [h1]
    · rw [if_neg hin] at h
      simp only [Except.ok.injEq] at h
      refine ⟨[], fun j hj => absurd hj (by simp), ?_, fun h0 => absurd rfl h0, by simp [h]⟩
      intro hlt
      simp at hlt
      omega

/-- The fuel of the walk is never the reason it ends: with at least `n - i`
units, one more unit changes nothing. -/
theorem genLoop_fuel_succ (c : Chain) (n : Int) (single : Bool) :
    ∀ (fuel i : Nat) (rnd : Nat → Nat) (p : Prefix) (words : List Str),
      n ≤ (i : Int) + fuel →
      genLoop c n single (fuel + 1) i rnd p words = genLoop c n single fuel i rnd p words := by
  intro fuel
  induction fuel with
  | zero =>
    intro i rnd p words hf
    have hin : ¬ (i : Int) < n := by
      simp at hf
      omega
    show genLoop c n single (0 + 1) i rnd p words = Except.ok words
    simp only [genLoop, if_neg hin]
  | succ fuel ih =>
    intro i rnd p words hf
    have hf2 : n ≤ ((i + 1 : Nat) : Int) + fuel := by
      push_cast at hf ⊢
      omega
    conv_lhs => rw [genLoop]
    conv_rhs => rw [genLoop]
    simp only [ih (i + 1) _ _ _ hf2]

/-! ## Chain.Generate -/

theorem initWindow_ok : ∀ (k : Nat) (arr : List Str) (p : Prefix),
    initWindow k arr = Except.ok p → p = arr.take k ∧ k ≤ arr.length
  | 0, _, p, h => by
    simp only [initWindow, Except.ok.injEq] at h
    subst h
    simp
  | _ + 1, [], _, h => by simp [initWindow] at h
  | k + 1, a :: arr, p, h => by
    rw [initWindow] at h
    cases hr : initWindow k arr with
    | error e => simp [hr] at h
    | ok q =>
      simp only [hr, Except.ok.injEq] at h
      obtain ⟨h1, h2⟩ := initWindow_ok k arr q hr
      subst h
      simp [h1, h2]

theorem GenerateWords_eq (c : Chain) (n : Int) (single : Bool) (rnd : Nat → Nat)
    (hpp : possiblePrefixes c ≠ []) :
    Chain.GenerateWords c n single rnd =
      match initWindow c.prefixLen (Split (chosenKey c rnd)) with
      | Except.error e => Except.error e
      | Except.ok p =>
        genLoop c n single n.toNat 0 (nextDraws rnd) p (List.cons (chosenKey c rnd) []) := by
  have hlen : ¬ (possiblePrefixes c).length = 0 := fun h0 => hpp (List.length_eq_zero.1 h0)
  unfold Chain.GenerateWords Intn
  dsimp only
  rw [if_neg hlen]
  rfl

theorem GenerateWords_no_start (c : Chain) (n : Int) (single : Bool) (rnd : Nat → Nat)
    (hpp : possiblePrefixes c = []) :
    Chain.GenerateWords c n single rnd = Except.error GoPanic.intnArg := by
  unfold Chain.GenerateWords Intn
  rw [hpp]
  rfl

theorem getD_mod_mem (l : List Str) (r : Nat) (h : l ≠ []) : l.getD (r % l.length) [] ∈ l := by
  have hlt : r % l.length < l.length := Nat.mod_lt _ (List.length_pos.2 h)
  rw [List.getD_eq_getElem _ _ hlt]
  exact List.getElem_mem _

theorem chosenKey_isStartKey (c : Chain) (rnd : Nat → Nat) (h : possiblePrefixes c ≠ []) :
    chosenKey c rnd ∈ possiblePrefixes c ∧ isStartKey (chosenKey c rnd) = true := by
  have hmem := getD_mod_mem (possiblePrefixes c) (rnd 0) h
  exact ⟨hmem, (List.mem_filter.1 hmem).2⟩

/-- What `Chain.Generate` returns: the join, less its first six characters, of
the chosen key, the tokens of a walk from the seed window, and the truncation
marker exactly when the walk appended `n` tokens. -/
theorem Generate_trace (c : Chain) (n : Int) (single : Bool) (rnd : Nat → Nat) (out : Str)
    (h : Chain.Generate c n single rnd = Except.ok out) :
    possiblePrefixes c ≠ [] ∧ (seedWindow c rnd).length = c.prefixLen ∧
    ∃ toks : List Str, IsWalk c single (nextDraws rnd) (seedWindow c rnd) toks ∧
      ((toks.length : Int) < n →
        ¬ continuesAt c single (nextDraws rnd) (seedWindow c rnd) toks toks.length) ∧
      (toks ≠ [] → (toks.length : Int) ≤ n) ∧
      out = (Join (chosenKey c rnd :: (toks ++
        (if toks ≠ [] ∧ (toks.length : Int) = n then [truncMarker] else [])))).drop 6 := by
  unfold Chain.Generate at h
  cases hw : Chain.GenerateWords c n single rnd with
  | error e => simp [hw] at h
  | ok words =>
    simp only [hw] at h
    by_cases hpp : possiblePrefixes c = []
    · rw [GenerateWords_no_start c n single rnd hpp] at hw
      exact absurd hw (by simp)
    · rw [GenerateWords_eq c n single rnd hpp] at hw
      cases hi : initWindow c.prefixLen (Split (chosenKey c rnd)) with
      | error e => simp [hi] at hw
      | ok p =>
        simp only [hi] at hw
        obtain ⟨hp, hplen⟩ := initWindow_ok _ _ _ hi
        have hps : p = seedWindow c rnd := hp
        obtain ⟨toks, hwalk, hstop, hle, hout⟩ := genLoop_trace c n single n.toNat 0
          (nextDraws rnd) p _ words (by simp) hw
        rw [hps] at hwalk hstop
        refine ⟨hpp, ?_, toks, hwalk, ?_, ?_, ?_⟩
        · rw [seedWindow, List.length_take]
          omega
        · intro hlt
          exact hstop (by simpa using hlt)
        · intro hne
          have := hle hne
          simpa using this
        · unfold sliceFrom6 at h
          split at h
          · simp only [Except.ok.injEq] at h
            rw [← h, hout]
            simp
          · simp at h

theorem initWindow_of_le : ∀ (k : Nat) (arr : List Str), k ≤ arr.length →
    initWindow k arr = Except.ok (arr.take k)
  | 0, _, _ => by simp [initWindow]
  | _ + 1, [], h => by simp at h
  | k + 1, a :: arr, h => by
    rw [initWindow, initWindow_of_le k arr (by simpa using h)]
    rfl

/-- The walk never panics from a non-empty window, and keeps the words it
was given. -/
theorem genLoop_returns (c : Chain) (n : Int) (single : Bool) :
    ∀ (fuel i : Nat) (rnd : Nat → Nat) (p : Prefix) (words : List Str), p ≠ [] →
      ∃ out, genLoop c n single fuel i rnd p words = Except.ok out ∧ words <+: out := by
  intro fuel
  induction fuel with
  | zero =>
    intro i rnd p words _
    exact ⟨words, rfl, List.prefix_refl _⟩
  | succ fuel ih =>
    intro i rnd p words hp
    rw [genLoop]
    by_cases hin : (i : Int) < n
    · rw [if_pos hin]
      by_cases hch : (Table.get c.chain (Prefix.String p)).length = 0
      · exact ⟨words, by simp only [hch, if_true], List.prefix_refl _⟩
      · simp only [hch, if_false]
        split
        · exact ⟨words, rfl, List.prefix_refl _⟩
        · rcases p with _ | ⟨a, q⟩
          · exact absurd rfl hp
          · simp only [Prefix.Shift]
            obtain ⟨out, hout, hpre⟩ := ih (i + 1) (nextDraws rnd)
              (q ++ [(Table.get c.chain (Prefix.String (a :: q))).getD
                (rnd 0 % (Table.get c.chain (Prefix.String (a :: q))).length) []])
              (if (i : Int) = n - 1 then
                words ++ [(Table.get c.chain (Prefix.String (a :: q))).getD
                  (rnd 0 % (Table.get c.chain (Prefix.String (a :: q))).length) []]
                  ++ [truncMarker]
               else words ++ [(Table.get c.chain (Prefix.String (a :: q))).getD
                  (rnd 0 % (Table.get c.chain (Prefix.String (a :: q))).length) []])
              (by simp)
            refine ⟨out, hout, List.IsPrefix.trans ?_ hpre⟩
            split
            · rw [List.append_assoc]; exact List.prefix_append _ _
            · exact List.prefix_append _ _
    · rw [if_neg hin]
      exact ⟨words, rfl, List.prefix_refl _⟩

theorem prefix_Join_cons (a : Str) : ∀ l : List Str, a <+: Join (a :: l)
  | [] => List.prefix_refl _
  | _ :: _ => List.prefix_append _ _

/-- `Chain.Generate` returns a string whenever some key passes the start
test, the prefix length is positive and the chosen key has at least
`prefixLen` pieces. -/
theorem Generate_returns (c : Chain) (n : Int) (single : Bool) (rnd : Nat → Nat)
    (hstart : possiblePrefixes c ≠ []) (hlen : 1 ≤ c.prefixLen)
    (hkey : c.prefixLen ≤ (Split (chosenKey c rnd)).length) :
    ∃ out, Chain.Generate c n single rnd = Except.ok out := by
  have hne : (Split (chosenKey c rnd)).take c.prefixLen ≠ [] := by
    intro h0
    have := congrArg List.length h0
    rw [List.length_take, List.length_nil] at this
    omega
  obtain ⟨words, hw, hpre⟩ := genLoop_returns c n single n.toNat 0 (nextDraws rnd) _
    (List.cons (chosenKey c rnd) []) hne
  have hgw : Chain.GenerateWords c n single rnd = Except.ok words := by
    rw [GenerateWords_eq c n single rnd hstart, initWindow_of_le _ _ hkey]
    exact hw
  obtain ⟨rest, hrest⟩ := hpre
  have h6 : 6 ≤ (Join words).length := by
    have h1 := (prefix_Join_cons (chosenKey c rnd) rest).length_le
    have h2 := (chosenKey_isStartKey c rnd hstart).2
    simp only [isStartKey, Bool.and_eq_true, decide_eq_true_eq] at h2
    rw [← hrest]
    simp only [List.singleton_append]
    omega
  refine ⟨(Join words).drop 6, ?_⟩
  unfold Chain.Generate
  rw [hgw]
  simp only [sliceFrom6, if_pos h6]

theorem Join_append_head (a b : Str) (l : List Str) :
    Join ((a ++ b) :: l) = a ++ Join (b :: l) := by
  cases l with
  | nil => rfl
  | cons x l => simp [Join_cons_cons]

theorem drop6_Join_key (rest : Str) (l : List Str) :
    (Join ((endMarker ++ rest) :: l)).drop 6 = Join (rest :: l) := by
  rw [Join_append_head]
  exact List.drop_left endMarker _

theorem Join_append_singleton (l : List Str) (t : Str) (h : l ≠ []) :
    Join (l ++ [t]) = Join l ++ ' ' :: t := by
  induction l with
  | nil => exact absurd rfl h
  | cons a l ih =>
    cases l with
    | nil => rfl
    | cons b l =>
      rw [List.cons_append, List.cons_append, Join_cons_cons, ← List.cons_append,
        ih (by simp), Join_cons_cons]
      simp

theorem IsWalk_mem (c : Chain) (single : Bool) (rnd : Nat → Nat) (p toks : List Str)
    (h : IsWalk c single rnd p toks) (t : Str) (ht : t ∈ toks) :
    ∃ j, j < toks.length ∧ continuesAt c single rnd p toks j ∧ t = drawAt c rnd p toks j := by
  obtain ⟨j, hj, hget⟩ := List.getElem_of_mem ht
  obtain ⟨hc, hd⟩ := h j hj
  refine ⟨j, hj, hc, ?_⟩
  rw [List.getElem?_eq_getElem hj, hget] at hd
  exact Option.some.inj hd

/-- C4 fails on the code: for the messages `a b` and `c d e f`, prefix length
2 and `n = 1`, `Chain.Generate` returns `c d e [...]`, which has three
space-separated tokens besides the truncation marker; the doc comment of
`Generate` promises at most `n` words. -/
theorem Generate_returns_more_than_n_words :
    parseScrape twoMessages "U1".toList = Except.ok "a b <end/>c d e f <end/>".toList ∧
    Chain.Build (NewChain 2) "a b <end/>c d e f <end/>".toList
      = Except.ok (chainOf 2 "a b <end/>c d e f <end/>") ∧
    Chain.Generate (chainOf 2 "a b <end/>c d e f <end/>") 1 false (fun _ => 0)
      = Except.ok "c d e [...]".toList ∧
    wordCount "c d e [...]".toList = 3 ∧ ¬ (3 ≤ 1) := by
  refine ⟨by decide, by decide, by decide, by decide, by decide⟩

/-- C5: in `stopAtBoundary` mode (`single = true`) a string returned by
`Chain.Generate` never contains the end marker `<end/>`, for every chain,
every `n` and every sequence of draws; and a string is returned whenever the
chain has a starting key, a positive prefix length, and its chosen key has at
least `prefixLen` pieces. -/
theorem Generate_single_never_contains_end_marker (c : Chain) (n : Int) (rnd : Nat → Nat) :
    (∀ out, Chain.Generate c n true rnd = Except.ok out → ¬ endMarker <:+: out) ∧
    (possiblePrefixes c ≠ [] → 1 ≤ c.prefixLen →
      c.prefixLen ≤ (Split (chosenKey c rnd)).length →
      ∃ out, Chain.Generate c n true rnd = Except.ok out) := by
  refine ⟨?_, Generate_returns c n true rnd⟩
  intro out h
  obtain ⟨hpp, _, toks, hwalk, _, _, hout⟩ := Generate_trace c n true rnd out h
  obtain ⟨rest, hkey, _, hrest⟩ := (isStartKey_iff _).1 (chosenKey_isStartKey c rnd hpp).2
  rw [hout, hkey, drop6_Join_key]
  apply not_infix_Join
  intro t ht
  rcases List.mem_cons.1 ht with h1 | h1
  · rw [h1]; exact hrest
  · rcases List.mem_append.1 h1 with h2 | h2
    · obtain ⟨j, _, hc, hd⟩ := IsWalk_mem c true _ _ toks hwalk t h2
      rw [hd]
      exact fun hin => hc.2 ⟨rfl, hin⟩
    · have : t = truncMarker := by
        split at h2
        · simpa using h2
        · simp at h2
      rw [this]
      decide

/-- Witness for C5: on the chain built from `a b <end/>c d e <end/>f g` with
prefix length 2, `Generate(5, true)` returns `c d e`, which has no marker. -/
theorem Generate_single_never_contains_end_marker_witness :
    Chain.Build (NewChain 2) "a b <end/>c d e <end/>f g".toList
      = Except.ok (chainOf 2 "a b <end/>c d e <end/>f g") ∧
    Chain.Generate (chainOf 2 "a b <end/>c d e <end/>f g") 5 true (fun _ => 0)
      = Except.ok "c d e".toList ∧
    ¬ endMarker <:+: "c d e".toList :=
  ⟨by decide, by decide,
    (Generate_single_never_contains_end_marker (chainOf 2 "a b <end/>c d e <end/>f g") 5
      (fun _ => 0)).1 _ (by decide)⟩

/-- C6 as the code has it: when no key of the chain passes the start test,
`Chain.Generate` returns no string and no partial output; the call panics in
`rand.Intn`, called with the length 0 of `possible_prefixes`. -/
theorem Generate_without_start_key_panics (c : Chain) (n : Int) (single : Bool)
    (rnd : Nat → Nat) (h : possiblePrefixes c = []) :
    Chain.Generate c n single rnd = Except.error GoPanic.intnArg := by
  unfold Chain.Generate
  rw [GenerateWords_no_start c n single rnd h]

/-- Witness for C6: the tables built from the empty stream and from a stream
shorter than the prefix length have no starting key, and `Generate` panics. -/
theorem Generate_without_start_key_panics_witness :
    (possiblePrefixes (chainOf 2 "") = [] ∧
      Chain.Generate (chainOf 2 "") 3 false (fun _ => 0) = Except.error GoPanic.intnArg) ∧
    (possiblePrefixes (chainOf 2 "<end/>x") = [] ∧
      Chain.Generate (chainOf 2 "<end/>x") 3 true (fun _ => 0)
        = Except.error GoPanic.intnArg) :=
  ⟨⟨by decide, Generate_without_start_key_panics _ 3 false _ (by decide)⟩,
   ⟨by decide, Generate_without_start_key_panics _ 3 true _ (by decide)⟩⟩

/-- C6 fails as stated: on the table built from the all-marker stream
`<end/> <end/>` with prefix length 2 no key qualifies and `Chain.Generate`
crashes with a run-time panic instead of reporting a failure value. -/
theorem Generate_all_marker_stream_crashes :
    Chain.Build (NewChain 2) "<end/> <end/>".toList
      = Except.ok (chainOf 2 "<end/> <end/>") ∧
    possiblePrefixes (chainOf 2 "<end/> <end/>") = [] ∧
    ∃ e, Chain.Generate (chainOf 2 "<end/> <end/>") 3 false (fun _ => 0) = Except.error e :=
  ⟨by decide, by decide, GoPanic.intnArg, by decide⟩

theorem length_Join_cons_ge (a : Str) (l : List Str) : a.length ≤ (Join (a :: l)).length :=
  (prefix_Join_cons a l).length_le

/-- C7: for `n ≥ 1`, a string returned by `Chain.Generate` is made of the
chosen key and the tokens `toks` of the walk.  If each of the `n` iterations
finds a candidate and is not stopped by the boundary rule, exactly `n` tokens
are appended and the output ends with the truncation marker `[...]`; if some
iteration before the end stops the walk, fewer than `n` tokens are appended
and no truncation marker is appended. -/
theorem Generate_truncation_marker (c : Chain) (n : Int) (single : Bool) (rnd : Nat → Nat)
    (out : Str) (hn : 1 ≤ n) (h : Chain.Generate c n single rnd = Except.ok out) :
    ∃ toks : List Str, IsWalk c single (nextDraws rnd) (seedWindow c rnd) toks ∧
      ((∀ j : Nat, (j : Int) < n →
          continuesAt c single (nextDraws rnd) (seedWindow c rnd) toks j) →
        (toks.length : Int) = n ∧
        out = (Join (chosenKey c rnd :: toks)).drop 6 ++ ' ' :: truncMarker) ∧
      ((∃ j : Nat, (j : Int) < n ∧
          ¬ continuesAt c single (nextDraws rnd) (seedWindow c rnd) toks j) →
        (toks.length : Int) < n ∧
        out = (Join (chosenKey c rnd :: toks)).drop 6) := by
  obtain ⟨hpp, _, toks, hwalk, hstop, hle, hout⟩ := Generate_trace c n single rnd out h
  have hkey6 : 6 ≤ (Join (chosenKey c rnd :: toks)).length := by
    have h1 := length_Join_cons_ge (chosenKey c rnd) toks
    have h2 := (chosenKey_isStartKey c rnd hpp).2
    simp only [isStartKey, Bool.and_eq_true, decide_eq_true_eq] at h2
    omega
  have hlen_le : (toks.length : Int) ≤ n := by
    by_cases ht : toks = []
    · subst ht; simp; omega
    · exact hle ht
  refine ⟨toks, hwalk, ?_, ?_⟩
  · intro hall
    have hlen : (toks.length : Int) = n := by
      by_contra hne
      have hlt : (toks.length : Int) < n := by omega
      exact hstop hlt (hall toks.length hlt)
    have hne : toks ≠ [] := by
      intro h0
      subst h0
      simp at hlen
      omega
    refine ⟨hlen, ?_⟩
    rw [hout, if_pos ⟨hne, hlen⟩, ← List.cons_append,
      Join_append_singleton _ _ (by simp), List.drop_append_of_le_length hkey6]
  · rintro ⟨j, hj, hnot⟩
    have hlt : (toks.length : Int) < n := by
      by_contra hge
      have : j < toks.length := by omega
      exact hnot (hwalk j this).1
    refine ⟨hlt, ?_⟩
    have hne : ¬ (toks ≠ [] ∧ (toks.length : Int) = n) := fun h0 => by omega
    rw [hout, if_neg hne, List.append_nil]

/-- Witness for C7: on the chain built from `a b <end/>c d e f <end/>` with
prefix length 2 and `n = 1` the single iteration goes on; `Generate` returns
`c d e [...]`: one token after the seed, then the truncation marker. -/
theorem Generate_truncation_marker_witness :
    ((1 : Int) ≤ 1 ∧
      Chain.Generate (chainOf 2 "a b <end/>c d e f <end/>") 1 false (fun _ => 0)
        = Except.ok "c d e [...]".toList) ∧
    ∃ toks : List Str, (toks.length : Int) = 1 ∧
      "c d e [...]".toList
        = (Join (chosenKey (chainOf 2 "a b <end/>c d e f <end/>") (fun _ => 0) :: toks)).drop 6
            ++ ' ' :: truncMarker := by
  refine ⟨⟨by decide, by decide⟩, ?_⟩
  obtain ⟨toks, _, hall, _⟩ := Generate_truncation_marker
    (chainOf 2 "a b <end/>c d e f <end/>") 1 false (fun _ => 0) "c d e [...]".toList
    (by decide) (by decide)
  refine ⟨toks, hall ?_⟩
  intro j hj
  have hj0 : j = 0 := by omega
  subst hj0
  refine ⟨?_, fun hs => Bool.false_ne_true hs.1⟩
  rw [candidatesAt_zero]
  decide

theorem Table.get_perm {m1 m2 : Table} (hp : m1.Perm m2) :
    (Table.keys m1).Nodup → ∀ key, Table.get m1 key = Table.get m2 key := by
  induction hp with
  | nil => intro _ _; rfl
  | cons e _ ih =>
    intro hnd key
    obtain ⟨k, v⟩ := e
    simp only [Table.keys, List.map_cons, List.nodup_cons] at hnd
    simp only [Table.get]
    rw [ih hnd.2 key]
  | swap e1 e2 l =>
    intro hnd key
    obtain ⟨k1, v1⟩ := e1
    obtain ⟨k2, v2⟩ := e2
    simp only [Table.keys, List.map_cons, List.nodup_cons, List.mem_cons, not_or] at hnd
    simp only [Table.get]
    by_cases h1 : k1 = key
    · by_cases h2 : k2 = key
      · exact absurd (h2.trans h1.symm) hnd.1.1
      · simp [h1, h2]
    · simp [h1]
  | trans hp1 _ ih1 ih2 =>
    intro hnd key
    have hnd2 := (hp1.map Prod.fst).nodup_iff.1 hnd
    rw [ih1 hnd key, ih2 hnd2 key]

theorem genLoop_congr (c1 c2 : Chain) (n : Int) (single : Bool)
    (hget : ∀ key, Table.get c1.chain key = Table.get c2.chain key) :
    ∀ (fuel i : Nat) (rnd : Nat → Nat) (p : Prefix) (words : List Str),
      genLoop c1 n single fuel i rnd p words = genLoop c2 n single fuel i rnd p words := by
  intro fuel
  induction fuel with
  | zero => intro i rnd p words; rfl
  | succ fuel ih =>
    intro i rnd p words
    rw [genLoop, genLoop, hget]
    simp only [ih]

/-- C9 as the code has it: for a fixed sequence of draws, `n` and boundary
mode, `Chain.Generate` returns the same result on two tables that hold the
same mapping from keys to candidate lists, have the same prefix length, and
enumerate their qualifying keys in the same order; nothing else enters the
result. -/
theorem Generate_determined_by_mapping_and_start_order (c1 c2 : Chain) (n : Int)
    (single : Bool) (rnd : Nat → Nat) (hlen : c1.prefixLen = c2.prefixLen)
    (hget : ∀ key, Table.get c1.chain key = Table.get c2.chain key)
    (hstart : possiblePrefixes c1 = possiblePrefixes c2) :
    Chain.Generate c1 n single rnd = Chain.Generate c2 n single rnd := by
  have hw : Chain.GenerateWords c1 n single rnd = Chain.GenerateWords c2 n single rnd := by
    unfold Chain.GenerateWords
    rw [hstart, hlen]
    simp only [genLoop_congr c1 c2 n single hget]
  unfold Chain.Generate
  rw [hw]

/-- Witness for C9: the table built from `<end/>a <end/>b x` with prefix
length 1, and the same entries enumerated with the non-qualifying empty key
last, give the same result. -/
theorem Generate_determined_by_mapping_and_start_order_witness :
    (chainOf 1 "<end/>a <end/>b x").chain
      ≠ (chainOf 1 "<end/>a <end/>b x").chain.rotate 1 ∧
    Chain.Generate (chainOf 1 "<end/>a <end/>b x") 4 false (fun _ => 1)
      = Chain.Generate ⟨(chainOf 1 "<end/>a <end/>b x").chain.rotate 1, 1⟩ 4 false
          (fun _ => 1) :=
  ⟨by decide,
    Generate_determined_by_mapping_and_start_order (chainOf 1 "<end/>a <end/>b x")
      ⟨(chainOf 1 "<end/>a <end/>b x").chain.rotate 1, 1⟩ 4 false (fun _ => 1) (by decide)
      (fun key => Table.get_perm (List.rotate_perm _ 1).symm (by decide) key) (by decide)⟩

/-- C9 fails as stated: the table built from `<end/>a <end/>b x` with prefix
length 1 and the same entries enumerated in reverse order hold the same
mapping, yet with the same draws `Chain.Generate` returns `a <end/>b x` on
the first and `b x` on the second. -/
theorem Generate_depends_on_key_enumeration_order :
    (chainOf 1 "<end/>a <end/>b x").chain.Perm (chainOf 1 "<end/>a <end/>b x").chain.reverse ∧
    (∀ key, Table.get (chainOf 1 "<end/>a <end/>b x").chain key
      = Table.get (chainOf 1 "<end/>a <end/>b x").chain.reverse key) ∧
    Chain.Generate (chainOf 1 "<end/>a <end/>b x") 4 false (fun _ => 0)
      = Except.ok "a <end/>b x".toList ∧
    Chain.Generate ⟨(chainOf 1 "<end/>a <end/>b x").chain.reverse, 1⟩ 4 false (fun _ => 0)
      = Except.ok "b x".toList :=
  ⟨(List.reverse_perm _).symm,
    fun key => Table.get_perm (List.reverse_perm _).symm (by decide) key,
    by decide, by decide⟩

/-! ## Stripping the end markers -/

theorem stripFrom_length_le : ∀ (s : Str) (k : Nat), (stripFrom k s).length ≤ s.length
  | [], k => by cases k <;> simp [stripFrom]
  | c :: cs, k + 1 => by
    rw [stripFrom]
    exact Nat.le_succ_of_le (stripFrom_length_le cs k)
  | c :: cs, 0 => by
    rw [stripFrom]
    split
    · exact Nat.le_succ_of_le (stripFrom_length_le cs 5)
    · simpa using stripFrom_length_le cs 0

theorem stripMarkers_eq_self : ∀ s : Str, ¬ endMarker <:+: s → stripMarkers s = s
  | [], _ => rfl
  | c :: cs, h => by
    have hpre : ¬ endMarker.isPrefixOf (c :: cs) = true := fun hp =>
      h (List.isPrefixOf_iff_prefix.1 hp).isInfix
    have hcs : ¬ endMarker <:+: cs := fun hi => h (List.infix_cons hi)
    have ih := stripMarkers_eq_self cs hcs
    unfold stripMarkers at ih ⊢
    rw [stripFrom, if_neg hpre, ih]

theorem stripMarkers_length_lt : ∀ s : Str, endMarker <:+: s →
    (stripMarkers s).length < s.length
  | [], h => by
    rw [List.infix_nil] at h
    exact absurd h (by decide)
  | c :: cs, h => by
    unfold stripMarkers
    rw [stripFrom]
    split
    · exact Nat.lt_succ_of_le (stripFrom_length_le cs 5)
    · next hpre =>
      rw [List.infix_cons_iff] at h
      rcases h with h | h
      · exact absurd (List.isPrefixOf_iff_prefix.2 h) hpre
      · have := stripMarkers_length_lt cs h
        unfold stripMarkers at this
        simpa using this

/-- C8 as the code has it: the default clean-up of `buildPost` leaves a
string without `<end/>` unchanged, and applying it a second time changes
nothing exactly when its first result contains no `<end/>`. -/
theorem stripMarkers_twice (s : Str) :
    (¬ endMarker <:+: s → stripMarkers s = s) ∧
    (stripMarkers (stripMarkers s) = stripMarkers s ↔ ¬ endMarker <:+: stripMarkers s) := by
  refine ⟨stripMarkers_eq_self s, ?_, stripMarkers_eq_self _⟩
  intro heq hin
  have := stripMarkers_length_lt _ hin
  rw [heq] at this
  exact Nat.lt_irrefl _ this

/-- Witness for C8: stripping `c <end/>d` gives `c d`; stripping again is a
no-op. -/
theorem stripMarkers_twice_witness :
    stripMarkers "c <end/>d".toList = "c d".toList ∧
    ¬ endMarker <:+: stripMarkers "c <end/>d".toList ∧
    stripMarkers (stripMarkers "c <end/>d".toList) = stripMarkers "c <end/>d".toList :=
  ⟨by decide, by decide, (stripMarkers_twice "c <end/>d".toList).2.2 (by decide)⟩

/-- C8 fails as stated: stripping `<en<end/>d/>` gives `<end/>`, and
stripping that gives the empty string. -/
theorem stripMarkers_not_idempotent :
    stripMarkers "<en<end/>d/>".toList = "<end/>".toList ∧
    stripMarkers (stripMarkers "<en<end/>d/>".toList) = [] ∧
    stripMarkers (stripMarkers "<en<end/>d/>".toList) ≠ stripMarkers "<en<end/>d/>".toList := by
  refine ⟨by decide, by decide, by decide⟩

/-! ## parseScrape -/

theorem scanTokens_append_space (b : Str) (c : Char) (hc : isSpace c = true) :
    ∀ (a cur : Str), scanTokens (a ++ c :: b) cur = scanTokens a cur ++ scanTokens b []
  | [], cur => by
    simp only [List.nil_append, scanTokens, hc, if_true]
    split <;> simp
  | d :: a, cur => by
    rw [List.cons_append, scanTokens, scanTokens]
    split
    · split
      · exact scanTokens_append_space b c hc a []
      · rw [scanTokens_append_space b c hc a []]; rfl
    · exact scanTokens_append_space b c hc a _

theorem fscanTokens_append_space (a b : Str) (c : Char) (hc : isSpace c = true) :
    fscanTokens (a ++ c :: b) = fscanTokens a ++ fscanTokens b :=
  scanTokens_append_space b c hc a []

theorem mem_scanTokens_infix : ∀ (s cur t : Str), t ∈ scanTokens s cur → t <:+: cur ++ s
  | [], cur, t, h => by
    rw [scanTokens] at h
    split at h
    · simp at h
    · rw [List.mem_singleton] at h
      rw [h, List.append_nil]
  | c :: cs, cur, t, h => by
    rw [scanTokens] at h
    split at h
    · split at h
      · have := mem_scanTokens_infix cs [] t h
        exact this.trans ((List.suffix_cons c cs).isInfix.trans (List.suffix_append cur _).isInfix)
      · rcases List.mem_cons.1 h with h1 | h1
        · rw [h1]; exact (List.prefix_append cur _).isInfix
        · have := mem_scanTokens_infix cs [] t h1
          exact this.trans
            ((List.suffix_cons c cs).isInfix.trans (List.suffix_append cur _).isInfix)
    · have := mem_scanTokens_infix cs (cur ++ [c]) t h
      simpa using this

theorem parseLoop_spec (user : Str) : ∀ (results : List Message) (wholebody : Str),
    (∀ m ∈ results, checkUser m user = true → m.text ≠ some JsonValue.other) →
    parseLoop user wholebody results
      = Except.ok (wholebody ++ markedTexts (selectedTexts user results))
  | [], wholebody, _ => by simp [parseLoop, selectedTexts, markedTexts]
  | m :: rest, wholebody, h => by
    have ih := fun w => parseLoop_spec user rest w
      (fun m' hm' => h m' (List.mem_cons_of_mem _ hm'))
    rw [parseLoop, selectedTexts]
    by_cases hc : checkUser m user = true
    · rw [if_pos hc, if_pos hc]
      cases ht : m.text with
      | none => exact ih wholebody
      | some v =>
        cases v with
        | str body =>
          simp only []
          rw [ih, markedTexts]
          simp
        | other => exact absurd ht (h m (List.mem_cons_self _ _) hc)
    · rw [if_neg hc, if_neg hc]
      exact ih wholebody

theorem fscanTokens_marker_append : ∀ ts : List Str,
    fscanTokens (endMarker ++ markedTexts ts) = fusedTail ts
  | [] => by decide
  | t :: ts => by
    rw [markedTexts, fusedTail, ← fscanTokens_marker_append ts]
    simp only [List.append_assoc, List.cons_append]
    rw [← List.append_assoc]
    exact fscanTokens_append_space _ _ ' ' (by decide)

theorem fscanTokens_markedTexts : ∀ ts : List Str,
    fscanTokens (markedTexts ts) = fusedTokens ts
  | [] => by decide
  | t :: ts => by
    rw [markedTexts, fusedTokens, ← fscanTokens_marker_append ts]
    simp only [List.append_assoc, List.cons_append]
    exact fscanTokens_append_space _ _ ' ' (by decide)

theorem fscanTokens_marker_fused (t : Str) (h : startsWithSpace t = true) :
    fscanTokens (endMarker ++ t) = endMarker :: fscanTokens t := by
  cases t with
  | nil => decide
  | cons c t =>
    have hc : isSpace c = true := h
    rw [fscanTokens_append_space _ _ c hc]
    have h1 : fscanTokens (c :: t) = fscanTokens t := by
      rw [fscanTokens, scanTokens, if_pos hc, if_pos rfl]; rfl
    rw [h1]
    rfl

theorem fusedTail_eq_separated : ∀ ts : List Str, (∀ u ∈ ts, startsWithSpace u = true) →
    fusedTail ts = endMarker :: separatedTokens ts
  | [], _ => rfl
  | t :: ts, h => by
    rw [fusedTail, separatedTokens, fscanTokens_marker_fused t (h t (List.mem_cons_self _ _)),
      fusedTail_eq_separated ts (fun u hu => h u (List.mem_cons_of_mem _ hu))]
    rfl

theorem count_marker_separated : ∀ ts : List Str, (∀ t ∈ ts, ¬ endMarker <:+: t) →
    (separatedTokens ts).count endMarker = ts.length
  | [], _ => rfl
  | t :: ts, h => by
    have h0 : (fscanTokens t).count endMarker = 0 := by
      rw [List.count_eq_zero]
      intro hm
      exact h t (List.mem_cons_self _ _) (by simpa using mem_scanTokens_infix t [] _ hm)
    rw [separatedTokens, List.count_append, h0, List.count_cons_self,
      count_marker_separated ts (fun u hu => h u (List.mem_cons_of_mem _ hu))]
    simp

/-- C10 as the code has it: when every selected `text` is a string,
`parseScrape` returns the selected texts in original order, each followed by
a space and `<end/>`, with nothing between a marker and the next text.  Its
white-space tokens are those of the first text, then those of each later text
with the preceding marker written directly in front of it, then a final
marker.  When every selected text after the first is empty or begins with
white space, these are the tokens of the texts with one `<end/>` token after
every selected message, and if moreover no text contains `<end/>`, the number
of `<end/>` tokens is the number of selected messages. -/
theorem parseScrape_tokens (results : List Message) (user : Str)
    (htext : ∀ m ∈ results, checkUser m user = true → m.text ≠ some JsonValue.other) :
    ∃ body, parseScrape results user = Except.ok body ∧
      body = markedTexts (selectedTexts user results) ∧
      fscanTokens body = fusedTokens (selectedTexts user results) ∧
      ((∀ u ∈ (selectedTexts user results).tail, startsWithSpace u = true) →
        fscanTokens body = separatedTokens (selectedTexts user results) ∧
        ((∀ t ∈ selectedTexts user results, ¬ endMarker <:+: t) →
          (fscanTokens body).count endMarker = (selectedTexts user results).length)) := by
  refine ⟨_, ?_, rfl, fscanTokens_markedTexts _, ?_⟩
  · have := parseLoop_spec user results [] htext
    rw [List.nil_append] at this
    exact this
  · intro hsp
    have hsep : fscanTokens (markedTexts (selectedTexts user results))
        = separatedTokens (selectedTexts user results) := by
      rw [fscanTokens_markedTexts]
      cases hsel : selectedTexts user results with
      | nil => rfl
      | cons t ts =>
        rw [hsel] at hsp
        rw [fusedTokens, separatedTokens, fusedTail_eq_separated ts hsp]
    refine ⟨hsep, fun hno => ?_⟩
    rw [hsep, count_marker_separated _ hno]

/-- Witness for C10: the messages `a b` and ` c d` of user `U1` (and one of
another user) give `a b <end/> c d <end/>`, whose tokens carry one marker
after each of the two selected messages. -/
theorem parseScrape_tokens_witness :
    (∀ m ∈ spacedMessages, checkUser m "U1".toList = true → m.text ≠ some JsonValue.other) ∧
    parseScrape spacedMessages "U1".toList = Except.ok "a b <end/> c d <end/>".toList ∧
    fscanTokens "a b <end/> c d <end/>".toList
      = ["a".toList, "b".toList, endMarker, "c".toList, "d".toList, endMarker] ∧
    (fscanTokens "a b <end/> c d <end/>".toList).count endMarker = 2 := by
  obtain ⟨body, hbody, hmarked, _, hsep⟩ :=
    parseScrape_tokens spacedMessages "U1".toList (by decide)
  have hb : body = "a b <end/> c d <end/>".toList := hmarked.trans (by decide)
  rw [hb] at hbody hsep
  obtain ⟨h1, h2⟩ := hsep (by decide)
  exact ⟨by decide, hbody, h1.trans (by decide), (h2 (by decide)).trans (by decide)⟩

/-- C10 fails as stated: for the messages `a b` and `c d e f` of user `U1`,
`parseScrape` returns `a b <end/>c d e f <end/>`; the marker after the first
message is fused with `c`, and only one token equals `<end/>` although two
messages are selected. -/
theorem parseScrape_fuses_marker_with_next_text :
    parseScrape twoMessages "U1".toList = Except.ok "a b <end/>c d e f <end/>".toList ∧
    selectedTexts "U1".toList twoMessages = ["a b".toList, "c d e f".toList] ∧
    (∀ t ∈ selectedTexts "U1".toList twoMessages, Contains t endMarker = false) ∧
    fscanTokens "a b <end/>c d e f <end/>".toList
      = ["a".toList, "b".toList, "<end/>c".toList, "d".toList, "e".toList, "f".toList,
          endMarker] ∧
    (fscanTokens "a b <end/>c d e f <end/>".toList).count endMarker = 1 ∧
    (selectedTexts "U1".toList twoMessages).length = 2 := by
  refine ⟨by decide, by decide, by decide, by decide, by decide, by decide⟩

/-! ## Key canonicalization -/

/-- C13: key canonicalization is injective on same-length prefixes of
space-free tokens: for prefixes `p` and `q` of equal length whose tokens hold
no space, `p.String() = q.String()` if and only if `p = q`. -/
theorem Prefix_String_injective (p q : Prefix) (hlen : p.length = q.length)
    (hp : ∀ t ∈ p, ' ' ∉ t) (hq : ∀ t ∈ q, ' ' ∉ t) :
    Prefix.String p = Prefix.String q ↔ p = q :=
  ⟨fun h => Join_inj_of_space_free hlen hp hq h, fun h => by rw [h]⟩

/-- Witness for C13: the prefixes `<end/>`, `c` and `<end/>`, `a` have
different keys. -/
theorem Prefix_String_injective_witness :
    (["<end/>".toList, "c".toList].length = ["<end/>".toList, "a".toList].length ∧
      (∀ t ∈ ["<end/>".toList, "c".toList], ' ' ∉ t) ∧
      (∀ t ∈ ["<end/>".toList, "a".toList], ' ' ∉ t)) ∧
    Prefix.String ["<end/>".toList, "c".toList] ≠ Prefix.String ["<end/>".toList, "a".toList] :=
  ⟨⟨by decide, by decide, by decide⟩,
    fun h => absurd ((Prefix_String_injective ["<end/>".toList, "c".toList]
      ["<end/>".toList, "a".toList] (by decide) (by decide) (by decide)).1 h) (by decide)⟩

/-! ## The choice of the starting key -/

theorem GenerateWords_head (c : Chain) (n : Int) (single : Bool) (rnd : Nat → Nat)
    (words : List Str) (h : Chain.GenerateWords c n single rnd = Except.ok words) :
    possiblePrefixes c ≠ [] ∧ ∃ rest, words = chosenKey c rnd :: rest := by
  by_cases hpp : possiblePrefixes c = []
  · rw [GenerateWords_no_start c n single rnd hpp] at h
    exact absurd h (by simp)
  · refine ⟨hpp, ?_⟩
    rw [GenerateWords_eq c n single rnd hpp] at h
    cases hi : initWindow c.prefixLen (Split (chosenKey c rnd)) with
    | error e => simp [hi] at h
    | ok p =>
      simp only [hi] at h
      obtain ⟨toks, _, _, _, hout⟩ := genLoop_trace c n single n.toNat 0
        (nextDraws rnd) p _ words (by simp) h
      exact ⟨_, by rw [hout, List.append_assoc]; rfl⟩

theorem count_eq_one_of_nodup : ∀ (l : List Str) (a : Str), l.Nodup → a ∈ l → l.count a = 1
  | [], _, _, h => by simp at h
  | x :: xs, a, hnd, h => by
    rw [List.nodup_cons] at hnd
    by_cases hax : a = x
    · subst hax
      rw [List.count_cons_self, List.count_eq_zero.2 hnd.1]
    · have hm : a ∈ xs := by
        rcases List.mem_cons.1 h with h1 | h1
        · exact absurd h1 hax
        · exact h1
      rw [List.count_cons_of_ne hax, count_eq_one_of_nodup xs a hnd.2 hm]

/-- C14: in a chain whose map has pairwise distinct keys, `possible_prefixes`
holds every table key that passes the start test exactly once and nothing
else; when it is not empty the draw `r = rnd 0 % len` lies in `[0, len)`,
`rand.Intn` returns it, the chosen key is the element at index `r`, and that
key is the first of the accumulated words. -/
theorem possible_prefixes_exact (c : Chain) (rnd : Nat → Nat)
    (hnd : (Table.keys c.chain).Nodup) :
    (∀ key, (possiblePrefixes c).count key
      = if key ∈ Table.keys c.chain ∧ isStartKey key = true then 1 else 0) ∧
    (possiblePrefixes c ≠ [] →
      ∃ r, r < (possiblePrefixes c).length ∧
        Intn rnd (possiblePrefixes c).length = Except.ok r ∧
        (possiblePrefixes c)[r]? = some (chosenKey c rnd)) ∧
    (∀ n single words, Chain.GenerateWords c n single rnd = Except.ok words →
      words.head? = some (chosenKey c rnd)) := by
  refine ⟨?_, ?_, ?_⟩
  · intro key
    unfold possiblePrefixes
    by_cases hs : isStartKey key = true
    · rw [List.count_filter hs]
      by_cases hm : key ∈ Table.keys c.chain
      · rw [count_eq_one_of_nodup _ _ hnd hm, if_pos ⟨hm, hs⟩]
      · rw [List.count_eq_zero.2 hm, if_neg (fun h => hm h.1)]
    · rw [if_neg (fun h => hs h.2), List.count_eq_zero]
      exact fun hm => hs (List.mem_filter.1 hm).2
  · intro hpp
    have hpos : 0 < (possiblePrefixes c).length := List.length_pos.2 hpp
    have hlt : rnd 0 % (possiblePrefixes c).length < (possiblePrefixes c).length :=
      Nat.mod_lt _ hpos
    refine ⟨rnd 0 % (possiblePrefixes c).length, hlt, ?_, ?_⟩
    · unfold Intn
      rw [if_neg (by omega)]
    · rw [chosenKey, List.getD_eq_getElem _ _ hlt, List.getElem?_eq_getElem hlt]
  · intro n single words h
    obtain ⟨_, rest, hw⟩ := GenerateWords_head c n single rnd words h
    rw [hw]
    rfl

/-- Witness for C14: the table built from `a b <end/> c d <end/> a b c <end/>`
with prefix length 2 has distinct keys; its qualifying keys are `<end/> c` and
`<end/> a`, each listed once. -/
theorem possible_prefixes_exact_witness :
    (Table.keys (chainOf 2 "a b <end/> c d <end/> a b c <end/>").chain).Nodup ∧
    possiblePrefixes (chainOf 2 "a b <end/> c d <end/> a b c <end/>")
      = ["<end/> c".toList, "<end/> a".toList] ∧
    (possiblePrefixes (chainOf 2 "a b <end/> c d <end/> a b c <end/>")).count
      "<end/> c".toList = 1 :=
  ⟨by decide, by decide,
    ((possible_prefixes_exact (chainOf 2 "a b <end/> c d <end/> a b c <end/>") (fun _ => 0)
      (by decide)).1 "<end/> c".toList).trans (by decide)⟩

/-! ## The final slice -/

/-- C15: whenever `Chain.Generate` has accumulated its words (the seed key
followed by the appended tokens), the final slice is in range and drops
exactly the seed's marker: `<end/>` followed by the returned string is the
space-join of the words. -/
theorem Generate_strips_exactly_seed_marker (c : Chain) (n : Int) (single : Bool)
    (rnd : Nat → Nat) (words : List Str)
    (h : Chain.GenerateWords c n single rnd = Except.ok words) :
    ∃ out, Chain.Generate c n single rnd = Except.ok out ∧
      endMarker ++ out = Join words ∧
      ∃ rest, words = chosenKey c rnd :: rest := by
  obtain ⟨hpp, rest, hw⟩ := GenerateWords_head c n single rnd words h
  obtain ⟨tail, hkey, _, _⟩ := (isStartKey_iff _).1 (chosenKey_isStartKey c rnd hpp).2
  have hj : Join words = endMarker ++ Join (tail :: rest) := by
    rw [hw, hkey, Join_append_head]
  have h6 : 6 ≤ (Join words).length := by
    rw [hj, List.length_append]
    exact Nat.le_add_right _ _
  refine ⟨(Join words).drop 6, ?_, ?_, rest, hw⟩
  · unfold Chain.Generate
    rw [h]
    simp only [sliceFrom6, if_pos h6]
  · rw [hj]
    exact congrArg (endMarker ++ ·) (List.drop_left endMarker _)

/-- Witness for C15: on the chain built from `a b <end/>c d e f <end/>` with
prefix length 2 and `n = 1` the words are `<end/>c d`, `e`, `[...]` and the
returned string is `c d e [...]`. -/
theorem Generate_strips_exactly_seed_marker_witness :
    Chain.GenerateWords (chainOf 2 "a b <end/>c d e f <end/>") 1 false (fun _ => 0)
      = Except.ok ["<end/>c d".toList, "e".toList, truncMarker] ∧
    Chain.Generate (chainOf 2 "a b <end/>c d e f <end/>") 1 false (fun _ => 0)
      = Except.ok "c d e [...]".toList ∧
    ∃ out, Chain.Generate (chainOf 2 "a b <end/>c d e f <end/>") 1 false (fun _ => 0)
        = Except.ok out ∧
      endMarker ++ out = Join ["<end/>c d".toList, "e".toList, truncMarker] := by
  obtain ⟨out, h1, h2, _⟩ := Generate_strips_exactly_seed_marker
    (chainOf 2 "a b <end/>c d e f <end/>") 1 false (fun _ => 0)
    ["<end/>c d".toList, "e".toList, truncMarker] (by decide)
  exact ⟨by decide, by decide, out, h1, h2⟩

/-! ## The walk, forwards -/

/-- The walk returns what its trace says: when `toks` are the tokens of a
walk from `p` that either stops at iteration `toks.length` or has used up the
`n` iterations, the loop returns the words, the tokens, and the truncation
marker exactly when the last permitted iteration appended a token. -/
theorem genLoop_of_trace (c : Chain) (n : Int) (single : Bool) :
    ∀ (toks : List Str) (fuel i : Nat) (rnd : Nat → Nat) (p : Prefix) (words : List Str),
      IsWalk c single rnd p toks →
      ((i : Int) + toks.length < n → ¬ continuesAt c single rnd p toks toks.length) →
      (toks ≠ [] → (i : Int) + toks.length ≤ n) →
      n ≤ (i : Int) + fuel →
      (toks ≠ [] → p ≠ []) →
      genLoop c n single fuel i rnd p words = Except.ok (words ++ toks ++
        (if toks ≠ [] ∧ (i : Int) + toks.length = n then [truncMarker] else [])) := by
  intro toks
  induction toks with
  | nil =>
    intro fuel i rnd p words _ hstop _ hf _
    simp only [ne_eq, not_true_eq_false, false_and, if_false, List.append_nil]
    cases fuel with
    | zero => rfl
    | succ fuel =>
      rw [genLoop]
      by_cases hin : (i : Int) < n
      · rw [if_pos hin]
        have hnc := hstop (by simpa using hin)
        by_cases hch : (Table.get c.chain (Prefix.String p)).length = 0
        · simp only [hch, if_true]
        · simp only [hch, if_false]
          have hne : candidatesAt c p [] 0 ≠ [] := by
            rw [candidatesAt_zero]
            exact fun h0 => hch (by rw [h0]; rfl)
          have hs : single = true ∧ endMarker <:+: drawAt c rnd p [] 0 := by
            by_contra hs
            exact hnc ⟨hne, hs⟩
          rw [drawAt_zero, ← Contains_iff, ← Bool.and_eq_true] at hs
          rw [if_pos hs]
      · rw [if_neg hin]
  | cons t ts ih =>
    intro fuel i rnd p words hwalk hstop hle hf hp
    obtain ⟨hc0, ht0⟩ := hwalk 0 (by simp)
    have hlen := hle (by simp)
    rw [List.length_cons] at hlen hstop
    push_cast at hlen hstop
    have hin : (i : Int) < n := by omega
    rcases p with _ | ⟨a, q⟩
    · exact absurd rfl (hp (by simp))
    · cases fuel with
      | zero => simp at hf; omega
      | succ fuel =>
        have ht : drawAt c rnd (a :: q) (t :: ts) 0 = t := by
          simpa using ht0.symm
        have hch : ¬ (Table.get c.chain (Prefix.String (a :: q))).length = 0 := by
          intro h0
          apply hc0.1
          rw [candidatesAt_zero]
          exact List.length_eq_zero.1 h0
        rw [drawAt_zero] at ht
        have hns : ¬ (single && Contains t endMarker) = true := by
          rw [Bool.and_eq_true, Contains_iff]
          intro hs
          apply hc0.2
          rw [drawAt_zero, ht]
          exact hs
        rw [genLoop, if_pos hin]
        simp only [hch, if_false, ht]
        rw [if_neg hns]
        simp only [Prefix.Shift]
        have hwalk2 : IsWalk c single (nextDraws rnd) (q ++ [t]) ts := by
          intro j hj
          have := hwalk (j + 1) (by simpa using hj)
          rw [continuesAt_shift, drawAt_shift] at this
          simpa using this
        have hstop2 : ((i + 1 : Nat) : Int) + ts.length < n →
            ¬ continuesAt c single (nextDraws rnd) (q ++ [t]) ts ts.length := by
          intro hlt
          rw [← continuesAt_shift c single rnd a q t ts ts.length]
          apply hstop
          push_cast at hlt
          omega
        have hle2 : ts ≠ [] → ((i + 1 : Nat) : Int) + ts.length ≤ n := by
          intro _
          push_cast
          omega
        rw [ih fuel (i + 1) (nextDraws rnd) (q ++ [t]) _ hwalk2 hstop2 hle2
          (by push_cast at hf ⊢; omega) (fun _ => by simp)]
        congr 1
        by_cases hlast : (i : Int) = n - 1
        · have hts : ts = [] := by
            by_contra hne
            have := List.length_pos.2 hne
            omega
          subst hts
          have h1 : (i : Int) + 1 = n := by omega
          simp [hlast, h1]
        · by_cases hts : ts = []
          · subst hts
            have h1 : ¬ (i : Int) + 1 = n := by omega
            simp [hlast, h1]
          · have h1 : ((i : Int) + 1 + ts.length = n) ↔
                ((i : Int) + (ts.length + 1) = n) := by
              constructor <;> intro <;> omega
            simp only [hlast, if_false, hts, ne_eq, not_false_eq_true, true_and,
              List.length_cons, reduceCtorEq, List.append_assoc, List.singleton_append]
            push_cast
            simp only [h1]

/-- `Chain.Generate` returns what the trace of its walk says, when a key
passes the start test and the chosen key has at least `prefixLen` pieces. -/
theorem Generate_of_trace (c : Chain) (n : Int) (single : Bool) (rnd : Nat → Nat)
    (toks : List Str) (hstart : possiblePrefixes c ≠ [])
    (hkey : c.prefixLen ≤ (Split (chosenKey c rnd)).length)
    (hlen : toks ≠ [] → 1 ≤ c.prefixLen)
    (hwalk : IsWalk c single (nextDraws rnd) (seedWindow c rnd) toks)
    (hstop : (toks.length : Int) < n →
      ¬ continuesAt c single (nextDraws rnd) (seedWindow c rnd) toks toks.length)
    (hle : toks ≠ [] → (toks.length : Int) ≤ n) :
    Chain.Generate c n single rnd = Except.ok ((Join (chosenKey c rnd :: (toks ++
      (if toks ≠ [] ∧ (toks.length : Int) = n then [truncMarker] else [])))).drop 6) := by
  have hp : toks ≠ [] → seedWindow c rnd ≠ [] := by
    intro hne h0
    have := congrArg List.length h0
    rw [seedWindow, List.length_take, List.length_nil] at this
    have := hlen hne
    omega
  have hloop := genLoop_of_trace c n single toks n.toNat 0 (nextDraws rnd) (seedWindow c rnd)
    (List.cons (chosenKey c rnd) []) hwalk (by simpa using hstop) (by simpa using hle)
    (by simp) hp
  have hgw : Chain.GenerateWords c n single rnd = Except.ok (chosenKey c rnd :: (toks ++
      (if toks ≠ [] ∧ (toks.length : Int) = n then [truncMarker] else []))) := by
    rw [GenerateWords_eq c n single rnd hstart, initWindow_of_le _ _ hkey]
    simp only []
    rw [← seedWindow, hloop]
    simp
  obtain ⟨tail, hk, _, _⟩ := (isStartKey_iff _).1 (chosenKey_isStartKey c rnd hstart).2
  unfold Chain.Generate
  rw [hgw]
  simp only []
  unfold sliceFrom6
  rw [if_pos]
  rw [hk, Join_append_head, List.length_append]
  exact Nat.le_add_right _ _

/-- C16: running out of continuations is a normal stop.  When a key passes
the start test and the chosen key has at least `prefixLen` pieces, the walk
has appended the tokens `toks` in fewer than `n` iterations, and the window
of the next iteration has no candidates in the table, `Chain.Generate`
returns, without panic, the chosen key and `toks` joined (less the leading
marker): no further token and no truncation marker. -/
theorem Generate_stops_without_candidates (c : Chain) (n : Int) (single : Bool)
    (rnd : Nat → Nat) (toks : List Str) (hstart : possiblePrefixes c ≠ [])
    (hkey : c.prefixLen ≤ (Split (chosenKey c rnd)).length)
    (hlen : toks ≠ [] → 1 ≤ c.prefixLen)
    (hwalk : IsWalk c single (nextDraws rnd) (seedWindow c rnd) toks)
    (hlt : (toks.length : Int) < n)
    (hnone : candidatesAt c (seedWindow c rnd) toks toks.length = []) :
    Chain.Generate c n single rnd
      = Except.ok ((Join (chosenKey c rnd :: toks)).drop 6) := by
  have h := Generate_of_trace c n single rnd toks hstart hkey hlen hwalk
    (fun _ hc => hc.1 hnone) (fun _ => Int.le_of_lt hlt)
  have hne : ¬ (toks ≠ [] ∧ (toks.length : Int) = n) := fun h0 => by omega
  rw [if_neg hne, List.append_nil] at h
  exact h

/-- Witness for C16: on the chain built from `<end/>a <end/>b x` with prefix
length 1 and `n = 4`, the walk appends `<end/>b` and `x`, the window `x` has
no candidates, and `Generate` returns `a <end/>b x`. -/
theorem Generate_stops_without_candidates_witness :
    candidatesAt (chainOf 1 "<end/>a <end/>b x")
      (seedWindow (chainOf 1 "<end/>a <end/>b x") (fun _ => 0))
      ["<end/>b".toList, "x".toList] 2 = [] ∧
    Chain.Generate (chainOf 1 "<end/>a <end/>b x") 4 false (fun _ => 0)
      = Except.ok "a <end/>b x".toList := by
  refine ⟨by decide, ?_⟩
  have h := Generate_stops_without_candidates (chainOf 1 "<end/>a <end/>b x") 4 false
    (fun _ => 0) ["<end/>b".toList, "x".toList] (by decide) (by decide) (fun _ => by decide)
    (by
      intro j hj
      have hj2 : j < 2 := hj
      interval_cases j
      · exact ⟨⟨by decide, fun hs => Bool.false_ne_true hs.1⟩, by decide⟩
      · exact ⟨⟨by decide, fun hs => Bool.false_ne_true hs.1⟩, by decide⟩)
    (by decide) (by decide)
  exact h.trans (by decide)

/-! ## Enumeration orders of one table -/

theorem Table.get_of_perm_chain {m : Table} {c : Chain} (hperm : m.Perm c.chain)
    (hnd : (Table.keys c.chain).Nodup) : ∀ key, Table.get m key = Table.get c.chain key :=
  fun key => (Table.get_perm hperm.symm hnd key).symm

theorem possiblePrefixes_perm {m1 m2 : Table} (k1 k2 : Nat) (hperm : m1.Perm m2) :
    (possiblePrefixes ⟨m1, k1⟩).Perm (possiblePrefixes ⟨m2, k2⟩) :=
  (hperm.map Prod.fst).filter _

theorem candidatesAt_congr (c1 c2 : Chain)
    (hget : ∀ key, Table.get c1.chain key = Table.get c2.chain key) (p toks : List Str)
    (j : Nat) : candidatesAt c1 p toks j = candidatesAt c2 p toks j := by
  unfold candidatesAt
  exact hget _

theorem getD_mod_of_all_eq (l : List Str) (a : Str) (r : Nat) (hne : l ≠ [])
    (h : ∀ x ∈ l, x = a) : l.getD (r % l.length) [] = a :=
  h _ (getD_mod_mem l r hne)

theorem possiblePrefixes_ne_nil_of_chosenKey (c : Chain) (rnd : Nat → Nat)
    (h : chosenKey c rnd ≠ []) : possiblePrefixes c ≠ [] := by
  intro h0
  apply h
  rw [chosenKey, h0]
  rfl

/-- C11 as the code has it: for the table built from
`a b <end/> c d <end/> a b c <end/>` with prefix length 2, in any enumeration
order, whenever the draw selects the starting key `<end/> c`, the string
`Chain.Generate` returns for `n ≥ 1` begins with a space followed by `c d`:
the slice drops the six characters of the marker and keeps the space that
joined the marker to `c`. -/
theorem Generate_from_separate_marker_key (m : Table) (n : Int) (single : Bool)
    (rnd : Nat → Nat)
    (hperm : m.Perm (chainOf 2 "a b <end/> c d <end/> a b c <end/>").chain)
    (hn : 1 ≤ n) (hkey : chosenKey ⟨m, 2⟩ rnd = "<end/> c".toList) :
    ∃ rest, Chain.Generate ⟨m, 2⟩ n single rnd = Except.ok (" c d".toList ++ rest) := by
  have hget := Table.get_of_perm_chain hperm (by decide)
  have hpp : possiblePrefixes ⟨m, 2⟩ ≠ [] :=
    possiblePrefixes_ne_nil_of_chosenKey _ rnd (by rw [hkey]; decide)
  have hseed : seedWindow ⟨m, 2⟩ rnd = ["<end/>".toList, "c".toList] := by
    rw [seedWindow, hkey]
    show List.take 2 (Split "<end/> c".toList) = _
    decide
  have hcand : Table.get m (Prefix.String ["<end/>".toList, "c".toList]) = ["d".toList] := by
    rw [hget]
    decide
  have hsplit : (2 : Nat) ≤ (Split (chosenKey ⟨m, 2⟩ rnd)).length := by
    rw [hkey]
    decide
  obtain ⟨out, hout⟩ := Generate_returns ⟨m, 2⟩ n single rnd hpp (Nat.le_succ 1) hsplit
  obtain ⟨_, _, toks, hwalk, hstop, _, hform⟩ := Generate_trace ⟨m, 2⟩ n single rnd out hout
  rw [hseed] at hwalk hstop
  have hdraw : ∀ l, drawAt ⟨m, 2⟩ (nextDraws rnd) ["<end/>".toList, "c".toList] l 0
      = "d".toList := by
    intro l
    rw [drawAt_zero, hcand]
    exact getD_mod_of_all_eq _ _ _ (by simp) (by simp)
  have hcont : ∀ l, continuesAt ⟨m, 2⟩ single (nextDraws rnd)
      ["<end/>".toList, "c".toList] l 0 := by
    intro l
    refine ⟨?_, ?_⟩
    · rw [candidatesAt_zero, hcand]
      simp
    · rw [hdraw]
      exact fun hs => absurd hs.2 (by decide)
  cases toks with
  | nil => exact absurd (hcont []) (hstop (by simpa using hn))
  | cons t ts =>
    have ht : t = "d".toList := by
      have := (hwalk 0 (by simp)).2
      rw [hdraw] at this
      simpa using this
    subst ht
    obtain ⟨u, hu⟩ := prefix_Join_cons "d".toList
      (ts ++ (if "d".toList :: ts ≠ [] ∧ (("d".toList :: ts).length : Int) = n
        then [truncMarker] else []))
    refine ⟨u, ?_⟩
    rw [hout, hform, hkey, List.cons_append, Join_cons_cons, ← hu]
    rfl

/-- Witness for C11: with the draw 0 on the table in the order `Build` fills
it, the chosen key is `<end/> c` and `Generate(1, false)` returns
` c d [...]`. -/
theorem Generate_from_separate_marker_key_witness :
    ((chainOf 2 "a b <end/> c d <end/> a b c <end/>").chain.Perm
        (chainOf 2 "a b <end/> c d <end/> a b c <end/>").chain ∧
      (1 : Int) ≤ 1 ∧
      chosenKey ⟨(chainOf 2 "a b <end/> c d <end/> a b c <end/>").chain, 2⟩ (fun _ => 0)
        = "<end/> c".toList) ∧
    ∃ rest, Chain.Generate ⟨(chainOf 2 "a b <end/> c d <end/> a b c <end/>").chain, 2⟩ 1 false
      (fun _ => 0) = Except.ok (" c d".toList ++ rest) :=
  ⟨⟨List.Perm.refl _, by decide, by decide⟩,
    Generate_from_separate_marker_key _ 1 false (fun _ => 0) (List.Perm.refl _) (by decide)
      (by decide)⟩

/-- C11 fails as stated: for that table, the chosen key `<end/> c` and
`n = 3`, `Chain.Generate` returns ` c d <end/> a [...]`, which begins with a
space and not with `c d`. -/
theorem Generate_output_begins_with_space :
    Chain.Build (NewChain 2) "a b <end/> c d <end/> a b c <end/>".toList
      = Except.ok (chainOf 2 "a b <end/> c d <end/> a b c <end/>") ∧
    chosenKey (chainOf 2 "a b <end/> c d <end/> a b c <end/>") (fun _ => 0)
      = "<end/> c".toList ∧
    Chain.Generate (chainOf 2 "a b <end/> c d <end/> a b c <end/>") 3 false (fun _ => 0)
      = Except.ok " c d <end/> a [...]".toList ∧
    ¬ "c d".toList <+: " c d <end/> a [...]".toList := by
  refine ⟨by decide, by decide, by decide, by decide⟩

/-- C12 as the code has it: the table built from `x y x y x y` with prefix
length 1 has no key that begins with `<end/>`, so in any enumeration order
`Chain.Generate` with `n = 3` returns nothing and panics in `rand.Intn`.
With the same cycle behind a boundary, the stream `<end/>x y x y x y`,
`Generate` with `n = 3` in unbounded mode returns `x y x y [...]` for every
sequence of draws and every enumeration order: the seed, exactly 3 generated
tokens, and the truncation marker. -/
theorem Generate_on_cycling_table (rnd : Nat → Nat) :
    (∀ m : Table, m.Perm (chainOf 1 "x y x y x y").chain →
      Chain.Generate ⟨m, 1⟩ 3 false rnd = Except.error GoPanic.intnArg) ∧
    (∀ m : Table, m.Perm (chainOf 1 "<end/>x y x y x y").chain →
      Chain.Generate ⟨m, 1⟩ 3 false rnd = Except.ok "x y x y [...]".toList) := by
  constructor
  · intro m hperm
    have hpp : possiblePrefixes ⟨m, 1⟩ = [] := by
      have h := possiblePrefixes_perm 1 1 hperm
      have h0 : possiblePrefixes ⟨(chainOf 1 "x y x y x y").chain, 1⟩ = [] := by decide
      rw [h0] at h
      exact List.Perm.eq_nil h
    unfold Chain.Generate
    rw [GenerateWords_no_start _ 3 false rnd hpp]
  · intro m hperm
    have hget := Table.get_of_perm_chain hperm (by decide)
    have hpp : possiblePrefixes ⟨m, 1⟩ = ["<end/>x".toList] := by
      have h := possiblePrefixes_perm 1 1 hperm
      have h0 : possiblePrefixes ⟨(chainOf 1 "<end/>x y x y x y").chain, 1⟩
          = ["<end/>x".toList] := by decide
      rw [h0] at h
      exact List.perm_singleton.1 h
    have hkey : chosenKey ⟨m, 1⟩ rnd = "<end/>x".toList := by
      rw [chosenKey, hpp]
      exact getD_mod_of_all_eq _ _ _ (by simp) (by simp)
    have hseed : seedWindow ⟨m, 1⟩ rnd = ["<end/>x".toList] := by
      rw [seedWindow, hkey]
      show List.take 1 (Split "<end/>x".toList) = _
      decide
    have hcand : ∀ j, candidatesAt ⟨m, 1⟩ ["<end/>x".toList]
        ["y".toList, "x".toList, "y".toList] j
        = candidatesAt (chainOf 1 "<end/>x y x y x y") ["<end/>x".toList]
            ["y".toList, "x".toList, "y".toList] j :=
      fun j => candidatesAt_congr ⟨m, 1⟩ (chainOf 1 "<end/>x y x y x y") hget _ _ j
    have hwalk : IsWalk ⟨m, 1⟩ false (nextDraws rnd) (seedWindow ⟨m, 1⟩ rnd)
        ["y".toList, "x".toList, "y".toList] := by
      rw [hseed]
      intro j hj
      have hj3 : j < 3 := hj
      refine ⟨⟨?_, fun hs => Bool.false_ne_true hs.1⟩, ?_⟩
      · rw [hcand]
        interval_cases j <;> decide
      · rw [drawAt, hcand]
        interval_cases j
        · exact congrArg some
            (getD_mod_of_all_eq _ "y".toList _ (by decide) (by decide)).symm
        · exact congrArg some
            (getD_mod_of_all_eq _ "x".toList _ (by decide) (by decide)).symm
        · exact congrArg some
            (getD_mod_of_all_eq _ "y".toList _ (by decide) (by decide)).symm
    have hsplit : (1 : Nat) ≤ (Split (chosenKey ⟨m, 1⟩ rnd)).length := by
      rw [hkey]
      decide
    have h := Generate_of_trace ⟨m, 1⟩ 3 false rnd ["y".toList, "x".toList, "y".toList]
      (by rw [hpp]; simp) hsplit (fun _ => Nat.le_refl 1) hwalk
      (fun hlt => absurd hlt (by decide)) (fun _ => by decide)
    rw [h, hkey]
    decide

/-- Witness for C12: on the tables as `Build` fills them, with the draws
`0, 1, 2, ...`. -/
theorem Generate_on_cycling_table_witness :
    Chain.Generate (chainOf 1 "x y x y x y") 3 false (fun j => j)
      = Except.error GoPanic.intnArg ∧
    Chain.Generate (chainOf 1 "<end/>x y x y x y") 3 false (fun j => j)
      = Except.ok "x y x y [...]".toList :=
  ⟨(Generate_on_cycling_table (fun j => j)).1 _ (List.Perm.refl _),
    (Generate_on_cycling_table (fun j => j)).2 _ (List.Perm.refl _)⟩

/-- C12 fails as stated: `Build` stores the keys `""`, `x` and `y` for the
stream `x y x y x y`; none passes the start test, and `Chain.Generate` with
`n = 3` panics instead of returning three tokens and the marker. -/
theorem Generate_on_marker_free_stream_panics :
    Chain.Build (NewChain 1) "x y x y x y".toList = Except.ok (chainOf 1 "x y x y x y") ∧
    Table.keys (chainOf 1 "x y x y x y").chain = ["".toList, "x".toList, "y".toList] ∧
    possiblePrefixes (chainOf 1 "x y x y x y") = [] ∧
    Chain.Generate (chainOf 1 "x y x y x y") 3 false (fun _ => 0)
      = Except.error GoPanic.intnArg := by
  refine ⟨by decide, by decide, by decide, by decide⟩

/-! ## The keys of a built table -/

theorem Table.keys_set_nodup (m : Table) (k : Str) (v : List Str)
    (hnd : (Table.keys m).Nodup) : (Table.keys (Table.set m k v)).Nodup := by
  induction m with
  | nil => simp [Table.set, Table.keys]
  | cons e m ih =>
    obtain ⟨k0, v0⟩ := e
    have hnd2 : k0 ∉ Table.keys m ∧ (Table.keys m).Nodup := by
      simpa [Table.keys] using hnd
    by_cases h0 : k0 = k
    · simpa [Table.set, h0, Table.keys] using hnd
    · have hnot : k0 ∉ Table.keys (Table.set m k v) := by
        intro hmem
        rcases Table.keys_set m k v k0 hmem with h1 | h1
        · exact h0 h1
        · exact hnd2.1 h1
      have := ih hnd2.2
      simp only [Table.set, h0, if_false, Table.keys, List.map_cons, List.nodup_cons]
      exact ⟨hnot, this⟩

theorem buildLoop_nodup : ∀ (toks : List Str) (m : Table) (p : Prefix) (m1 : Table)
    (p1 : Prefix), buildLoop m p toks = Except.ok (m1, p1) → (Table.keys m).Nodup →
    (Table.keys m1).Nodup
  | [], m, p, m1, p1, h, hnd => by
    simp only [buildLoop, Except.ok.injEq, Prod.mk.injEq] at h
    rw [← h.1]
    exact hnd
  | s :: rest, m, p, m1, p1, h, hnd => by
    rw [buildLoop] at h
    cases hs : Prefix.Shift p s with
    | error e => simp [hs] at h
    | ok p2 =>
      simp only [hs] at h
      exact buildLoop_nodup rest _ p2 m1 p1 h (Table.keys_set_nodup m _ _ hnd)

theorem BuildTokens_nodup (n : Nat) (toks : List Str) (c : Chain)
    (h : Chain.BuildTokens (NewChain n) toks = Except.ok c) : (Table.keys c.chain).Nodup := by
  unfold Chain.BuildTokens at h
  cases hb : buildLoop (NewChain n).chain (makePrefix (NewChain n).prefixLen) toks with
  | error e => simp [hb] at h
  | ok r =>
    obtain ⟨m1, p1⟩ := r
    simp only [hb, Except.ok.injEq] at h
    rw [← h]
    exact buildLoop_nodup toks _ _ m1 p1 hb (by simp [NewChain, Table.keys])

theorem mem_windowAt_padded (n : Nat) (toks : List Str) (i : Nat) (t : Str)
    (h : t ∈ windowAt n (padded n toks) i) : t = [] ∨ t ∈ toks := by
  have h1 := List.mem_of_mem_drop (List.mem_of_mem_take h)
  rcases List.mem_append.1 h1 with h2 | h2
  · exact Or.inl (List.eq_of_mem_replicate h2)
  · exact Or.inr h2

theorem windowAt_padded_head (n : Nat) (toks : List Str) (i : Nat) (hn : 1 ≤ n) (hi : i < n) :
    ∃ w, windowAt n (padded n toks) i = [] :: w := by
  obtain ⟨k, hk⟩ : ∃ k, n - i = k + 1 := ⟨n - i - 1, by omega⟩
  obtain ⟨n1, hn1⟩ : ∃ n1, n = n1 + 1 := ⟨n - 1, by omega⟩
  have hd : (padded n toks).drop i = [] :: (List.replicate k [] ++ toks) := by
    rw [padded, List.drop_append_of_le_length (by simp; omega), List.drop_replicate, hk]
    rfl
  refine ⟨(List.replicate k [] ++ toks).take n1, ?_⟩
  rw [windowAt, hd, hn1]
  rfl

theorem windowAt_padded_subset (n : Nat) (toks : List Str) (i : Nat) (hi : n ≤ i) :
    ∀ t ∈ windowAt n (padded n toks) i, t ∈ toks := by
  intro t ht
  have h1 := List.mem_of_mem_take ht
  rw [padded, List.drop_append_eq_append_drop, List.drop_eq_nil_of_le (by simp; omega),
    List.nil_append] at h1
  exact List.mem_of_mem_drop h1

/-! ## strings.Split on a key -/

theorem Split_space_free : ∀ a : Str, ' ' ∉ a → Split a = [a]
  | [], _ => rfl
  | c :: a, h => by
    have hc : ¬ c = ' ' := fun h0 => h (by simp [h0])
    have ha : ' ' ∉ a := fun h0 => h (List.mem_cons_of_mem _ h0)
    rw [Split, if_neg hc, Split_space_free a ha]

theorem Split_append_space (s : Str) : ∀ a : Str, ' ' ∉ a →
    Split (a ++ ' ' :: s) = a :: Split s
  | [], _ => by simp [Split]
  | c :: a, h => by
    have hc : ¬ c = ' ' := fun h0 => h (by simp [h0])
    have ha : ' ' ∉ a := fun h0 => h (List.mem_cons_of_mem _ h0)
    rw [List.cons_append, Split, if_neg hc, Split_append_space s a ha]

theorem Split_Join : ∀ w : List Str, w ≠ [] → (∀ t ∈ w, ' ' ∉ t) → Split (Join w) = w
  | [], h, _ => absurd rfl h
  | [a], _, hw => Split_space_free a (hw a (by simp))
  | a :: b :: w, _, hw => by
    rw [Join_cons_cons, Split_append_space _ a (hw a (by simp)),
      Split_Join (b :: w) (by simp) (fun t ht => hw t (List.mem_cons_of_mem _ ht))]

/-- The shape of a key of a built table that passes the start test: it is
the join of `n` non-empty space-free tokens of the stream. -/
theorem built_start_key_shape (n : Nat) (hn : 1 ≤ n) (toks : List Str)
    (hts : ∀ t ∈ toks, ' ' ∉ t) (c : Chain)
    (hc : Chain.BuildTokens (NewChain n) toks = Except.ok c) (key : Str)
    (hkey : key ∈ Table.keys c.chain) :
    ∃ w : List Str, key = Join w ∧ w.length = n ∧ (∀ t ∈ w, ' ' ∉ t) ∧ Split key = w ∧
      (isStartKey key = true → ∀ t ∈ w, t ∈ toks) := by
  obtain ⟨c2, hc2, _, _, hkeys⟩ := BuildTokens_spec n hn toks hts
  rw [hc] at hc2
  have hcc : c = c2 := Except.ok.inj hc2
  subst hcc
  obtain ⟨i, hi, hk⟩ := hkeys key hkey
  have hlen := length_windowAt_padded n toks i hi
  have hsf : ∀ t ∈ windowAt n (padded n toks) i, ' ' ∉ t := by
    intro t ht
    rcases mem_windowAt_padded n toks i t ht with h | h
    · rw [h]; simp
    · exact hts t h
  have hne : windowAt n (padded n toks) i ≠ [] := by
    intro h0
    rw [h0] at hlen
    simp at hlen
    omega
  refine ⟨_, hk, hlen, hsf, by rw [hk]; exact Split_Join _ hne hsf, ?_⟩
  intro hstart
  by_cases hin : i < n
  · obtain ⟨w, hw⟩ := windowAt_padded_head n toks i hn hin
    obtain ⟨rest, hrest, _, _⟩ := (isStartKey_iff key).1 hstart
    rw [hk, hw] at hrest
    cases w with
    | nil => exact absurd hrest (by simp [Join, endMarker])
    | cons b w => exact absurd hrest (by simp [Join, endMarker])
  · exact windowAt_padded_subset n toks i (by omega)

/-! ## Window initialisation and the Markov property -/

theorem chosenKey_mem_built_keys (m : Table) (c : Chain) (n : Nat) (rnd : Nat → Nat)
    (hperm : m.Perm c.chain) (hpp : possiblePrefixes ⟨m, n⟩ ≠ []) :
    chosenKey ⟨m, n⟩ rnd ∈ Table.keys c.chain ∧ isStartKey (chosenKey ⟨m, n⟩ rnd) = true := by
  obtain ⟨hmem, hs⟩ := chosenKey_isStartKey ⟨m, n⟩ rnd hpp
  exact ⟨(hperm.map Prod.fst).mem_iff.1 (List.mem_filter.1 hmem).1, hs⟩

/-- C18: window initialisation is index-safe.  For a prefix length `n ≥ 1`
and a stream of non-empty, space-free tokens, `Chain.Build` returns a chain
in which every key that passes the start test splits on single spaces into
exactly `n` non-empty tokens, the copy loop `p[i] = arr[i]` reads them all
without going out of range, and the window re-canonicalizes to the key; so in
every enumeration order of the table `Chain.Generate` starts from a window
whose key is the chosen key, and returns a string whenever some key passes
the start test. -/
theorem built_start_keys_index_safe (n : Nat) (toks : List Str) (hn : 1 ≤ n)
    (hts : ∀ t ∈ toks, t ≠ [] ∧ ' ' ∉ t) :
    ∃ c, Chain.BuildTokens (NewChain n) toks = Except.ok c ∧
      (∀ key ∈ Table.keys c.chain, isStartKey key = true →
        (Split key).length = n ∧ (∀ t ∈ Split key, t ≠ []) ∧
        initWindow n (Split key) = Except.ok (Split key) ∧
        Prefix.String (Split key) = key) ∧
      (∀ (m : Table) (k : Int) (single : Bool) (rnd : Nat → Nat), m.Perm c.chain →
        possiblePrefixes ⟨m, n⟩ ≠ [] →
        seedWindow ⟨m, n⟩ rnd = Split (chosenKey ⟨m, n⟩ rnd) ∧
        Prefix.String (seedWindow ⟨m, n⟩ rnd) = chosenKey ⟨m, n⟩ rnd ∧
        ∃ out, Chain.Generate ⟨m, n⟩ k single rnd = Except.ok out) := by
  obtain ⟨c, hc, _⟩ := BuildTokens_spec n hn toks (fun t ht => (hts t ht).2)
  have hshape : ∀ key ∈ Table.keys c.chain, isStartKey key = true →
      (Split key).length = n ∧ (∀ t ∈ Split key, t ≠ []) ∧
      initWindow n (Split key) = Except.ok (Split key) ∧
      Prefix.String (Split key) = key := by
    intro key hkey hstart
    obtain ⟨w, _, hlen, _, hsplit, hin⟩ :=
      built_start_key_shape n hn toks (fun t ht => (hts t ht).2) c hc key hkey
    rw [hsplit]
    refine ⟨hlen, fun t ht => (hts t (hin hstart t ht)).1, ?_, ?_⟩
    · have := initWindow_of_le n w (by omega)
      rw [this, List.take_of_length_le (by omega)]
    · rw [← hsplit]
      exact Join_Split key
  refine ⟨c, hc, hshape, ?_⟩
  intro m k single rnd hperm hpp
  obtain ⟨hmem, hstart⟩ := chosenKey_mem_built_keys m c n rnd hperm hpp
  obtain ⟨hlen, _, _, hjoin⟩ := hshape _ hmem hstart
  have hseed : seedWindow ⟨m, n⟩ rnd = Split (chosenKey ⟨m, n⟩ rnd) := by
    rw [seedWindow]
    exact List.take_of_length_le (by rw [hlen])
  refine ⟨hseed, by rw [hseed]; exact hjoin, ?_⟩
  exact Generate_returns ⟨m, n⟩ k single rnd hpp hn (by rw [hlen])

/-- Witness for C18 on the stream `a b <end/>c d e <end/>f g` with prefix
length 2: the key `<end/>c d` passes the start test and splits into the two
tokens `<end/>c` and `d`. -/
theorem built_start_keys_index_safe_witness :
    (1 ≤ 2 ∧ ∀ t ∈ fscanTokens "a b <end/>c d e <end/>f g".toList, t ≠ [] ∧ ' ' ∉ t) ∧
    ∃ c, Chain.Build (NewChain 2) "a b <end/>c d e <end/>f g".toList = Except.ok c ∧
      "<end/>c d".toList ∈ Table.keys c.chain ∧
      Split "<end/>c d".toList = ["<end/>c".toList, "d".toList] ∧
      initWindow 2 (Split "<end/>c d".toList) = Except.ok (Split "<end/>c d".toList) := by
  refine ⟨⟨by decide, by decide⟩, ?_⟩
  obtain ⟨c, hc, hshape, _⟩ := built_start_keys_index_safe 2
    (fscanTokens "a b <end/>c d e <end/>f g".toList) (by decide) (by decide)
  have hcc : c = chainOf 2 "a b <end/>c d e <end/>f g" := by
    have h2 : Chain.BuildTokens (NewChain 2) (fscanTokens "a b <end/>c d e <end/>f g".toList)
        = Except.ok (chainOf 2 "a b <end/>c d e <end/>f g") := by decide
    rw [hc] at h2
    exact Except.ok.inj h2
  have hmem : "<end/>c d".toList ∈ Table.keys c.chain := by
    rw [hcc]
    decide
  exact ⟨c, hc, hmem, by decide, (hshape _ hmem (by decide)).2.2.1⟩

theorem mem_followers (w : List Str) (t : Str) : ∀ l : List Str,
    t ∈ followers w l → (w ++ [t]) <:+: l
  | [], h => by simp [followers] at h
  | x :: xs, h => by
    rw [followers] at h
    rcases List.mem_append.1 h with h1 | h1
    · split at h1
      · next htake =>
        cases hd : (x :: xs).drop w.length with
        | nil => simp [hd] at h1
        | cons u us =>
          rw [hd] at h1
          have hu : t = u := by simpa using h1
          have hsplit := List.take_append_drop w.length (x :: xs)
          rw [htake, hd, ← hu] at hsplit
          refine List.IsPrefix.isInfix ⟨us, ?_⟩
          rw [← hsplit]
          simp
      · simp at h1
    · exact List.infix_cons (mem_followers w t xs h1)

theorem length_windowAt_walk (p ws : List Str) (j : Nat) (hj : j ≤ ws.length) :
    (windowAt p.length (p ++ ws) j).length = p.length := by
  simp [windowAt]
  omega

theorem windowAt_succ_walk (p ws : List Str) (j : Nat) (t : Str) (ht : ws[j]? = some t) :
    windowAt (p.length + 1) (p ++ ws) j = windowAt p.length (p ++ ws) j ++ [t] := by
  have h1 : ((p ++ ws).drop j)[p.length]? = some t := by
    rw [List.getElem?_drop, List.getElem?_append_right (by omega)]
    rw [← ht]
    congr 1
    omega
  rw [windowAt, windowAt, List.take_succ, h1]
  rfl

/-- C17: the Markov property of the walk.  For a prefix length `n ≥ 1` and a
stream of space-free tokens, `Chain.Build` returns a chain such that, in
every enumeration order of its table, a string returned by `Chain.Generate`
is made of the chosen key, whose `n` tokens are the seed window, and the
tokens `ws` of the walk, where every appended token is a member of the
table's candidate list for the `n` tokens that precede it, and every `n + 1`
consecutive tokens of the seed followed by `ws` occur consecutively in the
stream padded in front with `n` empty strings. -/
theorem walk_follows_stream (n : Nat) (toks : List Str) (hn : 1 ≤ n)
    (hts : ∀ t ∈ toks, ' ' ∉ t) :
    ∃ c, Chain.BuildTokens (NewChain n) toks = Except.ok c ∧
      ∀ (m : Table) (k : Int) (single : Bool) (rnd : Nat → Nat) (out : Str),
        m.Perm c.chain → Chain.Generate ⟨m, n⟩ k single rnd = Except.ok out →
        ∃ ws : List Str,
          out = (Join (chosenKey ⟨m, n⟩ rnd :: (ws ++
            (if ws ≠ [] ∧ (ws.length : Int) = k then [truncMarker] else [])))).drop 6 ∧
          seedWindow ⟨m, n⟩ rnd = Split (chosenKey ⟨m, n⟩ rnd) ∧
          (seedWindow ⟨m, n⟩ rnd).length = n ∧
          ∀ j t, ws[j]? = some t →
            t ∈ Table.get m (Prefix.String (windowAt n (seedWindow ⟨m, n⟩ rnd ++ ws) j)) ∧
            windowAt (n + 1) (seedWindow ⟨m, n⟩ rnd ++ ws) j <:+: padded n toks := by
  obtain ⟨c, hc, _, hfollow, _⟩ := BuildTokens_spec n hn toks hts
  refine ⟨c, hc, ?_⟩
  intro m k single rnd out hperm hout
  have hget := Table.get_of_perm_chain hperm (BuildTokens_nodup n toks c hc)
  obtain ⟨hpp, hslen, ws, hwalk, _, _, hform⟩ := Generate_trace ⟨m, n⟩ k single rnd out hout
  have hslen2 : (seedWindow ⟨m, n⟩ rnd).length = n := hslen
  obtain ⟨hmem, hstart⟩ := chosenKey_mem_built_keys m c n rnd hperm hpp
  obtain ⟨w, _, hwlen, _, hsplit, _⟩ :=
    built_start_key_shape n hn toks hts c hc _ hmem
  have hseed : seedWindow ⟨m, n⟩ rnd = Split (chosenKey ⟨m, n⟩ rnd) := by
    rw [seedWindow, hsplit]
    exact List.take_of_length_le (by rw [hwlen])
  refine ⟨ws, hform, hseed, hslen2, ?_⟩
  intro j t ht
  have hj : j < ws.length := by
    by_contra hge
    rw [List.getElem?_eq_none (by omega)] at ht
    exact absurd ht (by simp)
  obtain ⟨hcont, hdraw⟩ := hwalk j hj
  rw [ht] at hdraw
  have htd : t = drawAt ⟨m, n⟩ (nextDraws rnd) (seedWindow ⟨m, n⟩ rnd) ws j :=
    Option.some.inj hdraw
  have htmem : t ∈ candidatesAt ⟨m, n⟩ (seedWindow ⟨m, n⟩ rnd) ws j := by
    rw [htd, drawAt]
    exact getD_mod_mem _ _ hcont.1
  rw [candidatesAt, hslen2] at htmem
  refine ⟨htmem, ?_⟩
  have hwl : (windowAt n (seedWindow ⟨m, n⟩ rnd ++ ws) j).length = n := by
    have := length_windowAt_walk (seedWindow ⟨m, n⟩ rnd) ws j (by omega)
    rw [hslen2] at this
    exact this
  have hsucc := windowAt_succ_walk (seedWindow ⟨m, n⟩ rnd) ws j t ht
  rw [hslen2] at hsucc
  rw [hsucc]
  apply mem_followers
  have h2 : Table.get m (Prefix.String (windowAt n (seedWindow ⟨m, n⟩ rnd ++ ws) j))
      = followers (windowAt n (seedWindow ⟨m, n⟩ rnd ++ ws) j) (padded n toks) := by
    rw [hget, Prefix.String]
    exact hfollow _ hwl
  rw [← h2]
  exact htmem

/-- Witness for C17 on the stream `a b <end/>c d e <end/>f g` with prefix
length 2: `Generate(5, false)` returns `c d e <end/>f g`, and every three
consecutive tokens of the seed followed by the appended tokens occur in the
padded stream. -/
theorem walk_follows_stream_witness :
    (1 ≤ 2 ∧ ∀ t ∈ fscanTokens "a b <end/>c d e <end/>f g".toList, ' ' ∉ t) ∧
    Chain.Generate ⟨(chainOf 2 "a b <end/>c d e <end/>f g").chain, 2⟩ 5 false (fun _ => 0)
      = Except.ok "c d e <end/>f g".toList ∧
    ∃ ws : List Str,
      seedWindow ⟨(chainOf 2 "a b <end/>c d e <end/>f g").chain, 2⟩ (fun _ => 0)
        = ["<end/>c".toList, "d".toList] ∧
      ∀ j t, ws[j]? = some t →
        windowAt 3 (["<end/>c".toList, "d".toList] ++ ws) j
          <:+: padded 2 (fscanTokens "a b <end/>c d e <end/>f g".toList) := by
  refine ⟨⟨by decide, by decide⟩, by decide, ?_⟩
  obtain ⟨c, hc, h⟩ := walk_follows_stream 2
    (fscanTokens "a b <end/>c d e <end/>f g".toList) (by decide) (by decide)
  have hcc : c = chainOf 2 "a b <end/>c d e <end/>f g" := by
    have h2 : Chain.BuildTokens (NewChain 2) (fscanTokens "a b <end/>c d e <end/>f g".toList)
        = Except.ok (chainOf 2 "a b <end/>c d e <end/>f g") := by decide
    rw [hc] at h2
    exact Except.ok.inj h2
  subst hcc
  obtain ⟨ws, _, hseed, _, hall⟩ := h (chainOf 2 "a b <end/>c d e <end/>f g").chain 5 false
    (fun _ => 0) "c d e <end/>f g".toList (List.Perm.refl _) (by decide)
  have hs : seedWindow ⟨(chainOf 2 "a b <end/>c d e <end/>f g").chain, 2⟩ (fun _ => 0)
      = ["<end/>c".toList, "d".toList] := by decide
  refine ⟨ws, hs, ?_⟩
  intro j t ht
  have := (hall j t ht).2
  rw [hs] at this
  exact this

end SlackMarkov
